import Mathlib

/-!
Verification of the Clark & Wright savings heuristic and the round-trip
initializer of `src/vrpy/clark_wright.py`.

The Python code is shallowly embedded as follows.

* Graph nodes are the distinguished `Source` and `Sink` strings plus customer
  identifiers; they become the inductive type `Node`.
* The networkx `DiGraph` input becomes `VGraph`: an explicit node list, an
  explicit edge list, and total attribute maps (`cost`, `time` on edges,
  `demand`, `service_time` on nodes).  The Python code reads an attribute of
  a missing edge only outside the wellformedness domain `WF`, where it would
  raise; all theorems about `ClarkWright` therefore assume `WF`.
* A route (a small `DiGraph` in the source) becomes `Route`: its edge set
  plus the graph-level attributes `cost`, `load`, `time`, `name` that the
  source stores in `route.graph`.  Per-edge attributes of route edges are
  never read by the source, so they are not modelled.
* The mapping `self.route` lets several customers alias one mutable route
  object.  Aliasing is modelled with an arena: `CWState.routes` is the list
  of route objects ever created (index = identity), and `CWState.assign`
  maps each customer to the index of its current route.  Mutating a route
  through one alias is `List.set` at that index, visible to every alias.
* Python truthiness of the optional constraints (`if self.load_capacity:`)
  is modelled by `qTruthy` / `zTruthy`: `None` and `0` are falsy.
* Numeric attributes are rationals; `num_stops` is an integer as in the
  source docstring.  The penalty constant `1e10` is the exact rational
  `10 ^ 10` (exactly representable as a float, so nothing is lost).
* `list(set(self.route.values()))` deduplicates route objects by identity;
  in the arena model this is `List.dedup` on the list of assigned indices.
  Python's set iteration order is arbitrary; the model fixes the
  first-occurrence order, which no claim depends on.
-/

inductive Node where
  | Source : Node
  | Sink : Node
  | Cust : Nat → Node
deriving DecidableEq

open Node

abbrev GEdge := Node × Node

structure VGraph where
  nodes : List Node
  edges : List GEdge
  cost : Node → Node → ℚ
  time : Node → Node → ℚ
  demand : Node → ℚ
  service_time : Node → ℚ

/-- The customer nodes: `v not in ["Source", "Sink"]` in iteration order. -/
def customers (G : VGraph) : List Node :=
  G.nodes.filter (fun v => decide (v ≠ Source ∧ v ≠ Sink))

/-- Route object: edge set plus the `route.graph` attribute dictionary. -/
structure Route where
  edges : Finset GEdge
  cost : ℚ
  load : ℚ
  time : ℚ
  name : ℕ

/-- Value of a never-initialized route slot (never observed on the
wellformed domain). -/
def dRoute : Route := ⟨∅, 0, 0, 0, 0⟩

/-- Consecutive pairs of a node list: the edges `networkx.add_path` adds. -/
def pathPairs : List Node → List GEdge
  | a :: b :: rest => (a, b) :: pathPairs (b :: rest)
  | _ => []

/-- `networkx.add_path route l`: add the consecutive edges of `l`. -/
def addPathEdges (es : Finset GEdge) (l : List Node) : Finset GEdge :=
  es ∪ (pathPairs l).toFinset

/-- `route.nodes()`: every endpoint of an edge of the route. -/
def routeNodes (r : Route) : Finset Node :=
  r.edges.image Prod.fst ∪ r.edges.image Prod.snd

/-- The customers visited by a route (its nodes other than Source/Sink). -/
def route_customers (r : Route) : Finset Node :=
  (routeNodes r).filter (fun v => v ≠ Source ∧ v ≠ Sink)

/-- The three optional constructor arguments of `ClarkWright`. -/
structure CWConfig where
  load_capacity : Option ℚ
  duration : Option ℚ
  num_stops : Option ℤ

/-- Python truthiness of an optional number: `None` and `0` are falsy. -/
def qTruthy : Option ℚ → Bool
  | none => false
  | some x => x != 0

/-- Python truthiness of an optional integer: `None` and `0` are falsy. -/
def zTruthy : Option ℤ → Bool
  | none => false
  | some x => x != 0

def capQ (cfg : CWConfig) : ℚ := cfg.load_capacity.getD 0

def durQ (cfg : CWConfig) : ℚ := cfg.duration.getD 0

def stopsZ (cfg : CWConfig) : ℤ := cfg.num_stops.getD 0

/-- The mutable state of a `ClarkWright` object during `run`:
the arena of route objects, the `self.route` mapping (customer to arena
index), and `self.processed_nodes`. -/
structure CWState where
  routes : List Route
  assign : Node → ℕ
  processed : List Node

/-- The route object a given arena index denotes. -/
def routeAt (s : CWState) (idx : ℕ) : Route := s.routes.getD idx dRoute

/-- Wellformedness of the input network, the domain on which the Python
`ClarkWright.run` performs no failing dictionary lookup: unique nodes and
edges, edge endpoints are nodes, no edge enters Source or leaves Sink, and
every customer has its Source and Sink connections. -/
def WF (G : VGraph) : Prop :=
  G.nodes.Nodup ∧ G.edges.Nodup ∧
  (∀ e ∈ G.edges, e.1 ∈ G.nodes ∧ e.2 ∈ G.nodes) ∧
  (∀ e ∈ G.edges, e.2 ≠ Source ∧ e.1 ≠ Sink) ∧
  (∀ v ∈ customers G, (Source, v) ∈ G.edges ∧ (v, Sink) ∈ G.edges)

namespace ClarkWright

/-- The round-trip route built for customer `v` in `initialize_routes`. -/
def initRoute (G : VGraph) (cfg : CWConfig) (v : Node) : Route :=
  { edges := addPathEdges ∅ [Source, v, Sink]
    cost := G.cost Source v + G.cost v Sink
    load := if qTruthy cfg.load_capacity then G.demand v else 0
    time := if qTruthy cfg.duration then
        G.service_time v + G.time Source v + G.time v Sink
      else 0
    name := 0 }

/-- `ClarkWright.initialize_routes`: one round trip per customer; dict
insertion order is customer iteration order, so customer `v` gets arena
index `indexOf v (customers G)`. -/
def initialize_routes (G : VGraph) (cfg : CWConfig) : CWState :=
  { routes := (customers G).map (initRoute G cfg)
    assign := fun v => (customers G).indexOf v
    processed := [] }

/-- The savings value stored in `self.savings` for a candidate edge. -/
def savings (G : VGraph) (e : GEdge) : ℚ :=
  G.cost e.1 Sink + G.cost Source e.2 - G.cost e.1 e.2

/-- The keys of `self.savings`: edges with `i != "Source"` and
`j != "Sink"`, in edge-iteration order. -/
def candidate_edges (G : VGraph) : List GEdge :=
  G.edges.filter (fun e => decide (e.1 ≠ Source ∧ e.2 ≠ Sink))

/-- `ClarkWright.get_savings`: sort the candidate edges by non-increasing
savings (Python `sorted(..., reverse=True)` is a stable descending sort,
as is `mergeSort` with this comparison). -/
def get_savings (G : VGraph) : List GEdge :=
  (candidate_edges G).mergeSort (fun a b => decide (savings G b ≤ savings G a))

/-- `ClarkWright.constraints_met`. -/
def constraints_met (G : VGraph) (cfg : CWConfig) (s : CWState)
    (ex nw : Node) : Bool :=
  let rt := routeAt s (s.assign ex)
  if nw ∈ routeNodes rt then false
  else if qTruthy cfg.load_capacity = true ∧
      capQ cfg < rt.load + G.demand nw then false
  else if qTruthy cfg.duration = true ∧
      durQ cfg < rt.time + G.time ex nw + G.time nw Sink
        + G.service_time nw - G.time ex Sink then false
  else if zTruthy cfg.num_stops = true ∧
      stopsZ cfg < ((routeNodes rt).card : ℤ) - 2 + 1 then false
  else true

/-- `ClarkWright.merge_route`: splice `nw` into `ex`'s route next to
`depot`, update the route attributes, extend `processed_nodes`, and point
`nw`'s mapping entry at `ex`'s route object. -/
def merge_route (G : VGraph) (cfg : CWConfig) (s : CWState)
    (ex nw depot : Node) : CWState :=
  let idx := s.assign ex
  let rt := routeAt s idx
  let rt := if depot = Sink then
      { rt with
        edges := (addPathEdges rt.edges [ex, nw, Sink]).erase (ex, Sink)
        cost := rt.cost +
          (G.cost ex nw + G.cost nw Sink - G.cost ex Sink) }
    else rt
  let rt := if depot = Source then
      { rt with
        edges := (addPathEdges rt.edges [Source, nw, ex]).erase (Source, ex)
        cost := rt.cost +
          (G.cost nw ex + G.cost Source nw - G.cost Source ex) }
    else rt
  let rt := if qTruthy cfg.load_capacity then
      { rt with load := rt.load + G.demand nw }
    else rt
  let rt := if qTruthy cfg.duration then
      { rt with time := rt.time +
          (G.time ex nw + G.time nw Sink + G.service_time nw
            - G.time ex Sink) }
    else rt
  let pr := s.processed ++ [nw]
  let pr := if ex ∈ pr then pr else pr ++ [ex]
  { routes := s.routes.set idx rt
    assign := fun w => if w = nw then idx else s.assign w
    processed := pr }

/-- `ClarkWright.process_edge`: try the Sink-side merge, else the
Source-side merge on the reversed edge, else do nothing. -/
def process_edge (G : VGraph) (cfg : CWConfig) (s : CWState)
    (i j : Node) : CWState :=
  if j ∉ s.processed ∧ constraints_met G cfg s i j = true ∧
      (i, Sink) ∈ (routeAt s (s.assign i)).edges then
    merge_route G cfg s i j Sink
  else if (j, i) ∈ G.edges ∧ i ∉ s.processed ∧
      constraints_met G cfg s j i = true ∧
      (Source, j) ∈ (routeAt s (s.assign j)).edges then
    merge_route G cfg s j i Source
  else s

/-- The state reached after a prefix of the candidate list. -/
def fold_edges (G : VGraph) (cfg : CWConfig) (s : CWState)
    (l : List GEdge) : CWState :=
  l.foldl (fun s e => process_edge G cfg s e.1 e.2) s

/-- The state of a `ClarkWright` object after the loop of `run`. -/
def run_state (G : VGraph) (cfg : CWConfig) : CWState :=
  fold_edges G cfg (initialize_routes G cfg) (get_savings G)

/-- The distinct route identities in `self.route.values()`. -/
def distinct_idx (G : VGraph) (s : CWState) : List ℕ :=
  ((customers G).map s.assign).dedup

/-- `ClarkWright.update_routes`: the distinct routes, each given the next
sequential `name` starting from 1. -/
def best_routes (G : VGraph) (cfg : CWConfig) : List Route :=
  (distinct_idx G (run_state G cfg)).enum.map
    (fun p => { routeAt (run_state G cfg) p.2 with name := p.1 + 1 })

/-- `self.best_value`: the summed cost of the stored best routes. -/
def best_value (G : VGraph) (cfg : CWConfig) : ℚ :=
  ((best_routes G cfg).map Route.cost).sum

end ClarkWright

namespace RoundTrip

/-- The penalty cost `1e10` for a synthesized edge. -/
def penalty : ℚ := 10 ^ 10

/-- `networkx.add_edge` with a cost attribute: endpoints are added if
absent, the edge is appended, and its cost recorded. -/
def addEdge (G : VGraph) (e : GEdge) (c : ℚ) : VGraph :=
  { G with
    nodes :=
      let n1 := if e.1 ∈ G.nodes then G.nodes else G.nodes ++ [e.1]
      if e.2 ∈ n1 then n1 else n1 ++ [e.2]
    edges := G.edges ++ [e]
    cost := fun a b => if (a, b) = e then c else G.cost a b }

/-- The state of a `RoundTrip` object: the (mutated) input graph, the
`self.route` dict, `self.round_trips`, and the `route_id` counter. -/
structure RTState where
  g : VGraph
  route : Node → Route
  round_trips : List Route
  route_id : ℕ

/-- The `if edge in G.edges ... else synthesize` pattern of `RoundTrip.run`:
read the cost of an existing edge, or add the edge with the penalty cost
and use that. -/
def getOrAdd (g : VGraph) (e : GEdge) : ℚ × VGraph :=
  if e ∈ g.edges then (g.cost e.1 e.2, g) else (penalty, addEdge g e penalty)

/-- One iteration of the loop in `RoundTrip.run` for node `v`. -/
def step (s : RTState) (v : Node) : RTState :=
  if v = Source ∨ v = Sink then s
  else
    let rid := s.route_id + 1
    let p1 := getOrAdd s.g (Source, v)
    let p2 := getOrAdd p1.2 (v, Sink)
    let r : Route :=
      { edges := {(Source, v), (v, Sink)}
        cost := p1.1 + p2.1
        load := 0
        time := 0
        name := rid }
    { g := p2.2
      route := fun w => if w = v then r else s.route w
      round_trips := s.round_trips ++ [r]
      route_id := rid }

/-- `RoundTrip.run`: iterate over the nodes of the input graph, threading
the shared, mutated graph through the loop. -/
def run (G : VGraph) : RTState :=
  G.nodes.foldl step
    { g := G, route := fun _ => dRoute, round_trips := [], route_id := 0 }

end RoundTrip

/-! ### Path lemmas -/

@[simp] theorem pathPairs_nil : pathPairs [] = [] := rfl

@[simp] theorem pathPairs_single (a : Node) : pathPairs [a] = [] := rfl

@[simp] theorem pathPairs_cons_cons (a b : Node) (rest : List Node) :
    pathPairs (a :: b :: rest) = (a, b) :: pathPairs (b :: rest) := rfl

theorem pathPairs_mem_fst : ∀ {l : List Node} {x y : Node},
    (x, y) ∈ pathPairs l → x ∈ l := by
  intro l
  induction l with
  | nil => intro x y h; simp at h
  | cons a t ih =>
    intro x y h
    cases t with
    | nil => simp at h
    | cons b rest =>
      rw [pathPairs_cons_cons] at h
      rcases List.mem_cons.mp h with h1 | h2
      · simp only [Prod.mk.injEq] at h1
        simp [h1.1]
      · exact List.mem_cons_of_mem _ (ih h2)

theorem pathPairs_mem_snd : ∀ {l : List Node} {x y : Node},
    (x, y) ∈ pathPairs l → y ∈ l := by
  intro l
  induction l with
  | nil => intro x y h; simp at h
  | cons a t ih =>
    intro x y h
    cases t with
    | nil => simp at h
    | cons b rest =>
      rw [pathPairs_cons_cons] at h
      rcases List.mem_cons.mp h with h1 | h2
      · simp only [Prod.mk.injEq] at h1
        simp [h1.2]
      · exact List.mem_cons_of_mem _ (ih h2)

theorem pathPairs_append_pair : ∀ (l : List Node) (a b : Node),
    pathPairs (l ++ [a, b]) = pathPairs (l ++ [a]) ++ [(a, b)] := by
  intro l
  induction l with
  | nil => intro a b; simp
  | cons x t ih =>
    intro a b
    cases t with
    | nil => simp
    | cons y rest =>
      simp only [List.cons_append, pathPairs_cons_cons]
      rw [← List.cons_append y rest [a, b], ih a b]
      simp

theorem pathPairs_last : ∀ {l : List Node} {x e : Node}, e ∉ l →
    (x, e) ∈ pathPairs (l ++ [e]) → ∃ l1, l = l1 ++ [x] := by
  intro l
  induction l with
  | nil => intro x e _ h; simp at h
  | cons a t ih =>
    intro x e he h
    cases t with
    | nil =>
      simp only [List.cons_append, List.nil_append, pathPairs_cons_cons,
        pathPairs_single, List.mem_singleton, Prod.mk.injEq] at h
      exact ⟨[], by simp [h.1]⟩
    | cons b rest =>
      simp only [List.cons_append, pathPairs_cons_cons] at h
      rcases List.mem_cons.mp h with h1 | h2
      · exfalso
        apply he
        simp only [Prod.mk.injEq] at h1
        simp [← h1.2]
      · have ht : e ∉ b :: rest := fun hm => he (List.mem_cons_of_mem _ hm)
        obtain ⟨l1, hl1⟩ := ih ht (by simpa using h2)
        exact ⟨a :: l1, by simp [hl1]⟩

theorem pathPairs_head {l : List Node} {x y : Node} (hx : x ∉ l)
    (h : (x, y) ∈ pathPairs (x :: l)) : ∃ l1, l = y :: l1 := by
  cases l with
  | nil => simp at h
  | cons b rest =>
    rw [pathPairs_cons_cons] at h
    rcases List.mem_cons.mp h with h1 | h2
    · simp only [Prod.mk.injEq] at h1
      exact ⟨rest, by rw [h1.2]⟩
    · exact absurd (pathPairs_mem_fst h2) hx

theorem pathPairs_nodes : ∀ {l : List Node}, 2 ≤ l.length →
    ((pathPairs l).toFinset.image Prod.fst ∪
      (pathPairs l).toFinset.image Prod.snd) = l.toFinset := by
  intro l
  induction l with
  | nil => intro h; simp at h
  | cons a t ih =>
    intro h
    cases t with
    | nil => simp at h
    | cons b rest =>
      cases rest with
      | nil =>
        ext x
        simp [pathPairs]
      | cons c rest2 =>
        have ih2 := ih (by simp)
        rw [pathPairs_cons_cons, List.toFinset_cons, Finset.image_insert,
          Finset.image_insert, Finset.insert_union, Finset.union_insert, ih2]
        have hb : b ∈ (b :: c :: rest2).toFinset := by simp
        rw [Finset.insert_eq_self.mpr hb]
        simp

/-! ### Basic lemmas about the data model -/

theorem mem_customers {G : VGraph} {v : Node} :
    v ∈ customers G ↔ v ∈ G.nodes ∧ v ≠ Source ∧ v ≠ Sink := by
  simp [customers]

theorem customers_nodup {G : VGraph} (h : G.nodes.Nodup) :
    (customers G).Nodup := h.filter _

theorem getD_set_self {α : Type} {l : List α} {i : ℕ} {r d : α}
    (h : i < l.length) : (l.set i r).getD i d = r := by
  simp [List.getD_eq_getElem?_getD, List.getElem?_set_self h]

theorem getD_set_ne {α : Type} {l : List α} {i j : ℕ} (h : i ≠ j)
    {r d : α} : (l.set i r).getD j d = l.getD j d := by
  simp [List.getD_eq_getElem?_getD, List.getElem?_set_ne h]

theorem getD_map_indexOf {α : Type} {l : List Node} {f : Node → α}
    {v : Node} {d : α} (hv : v ∈ l) :
    (l.map f).getD (l.indexOf v) d = f v := by
  have hlt : l.indexOf v < l.length := List.indexOf_lt_length.mpr hv
  rw [List.getD_eq_getElem?_getD, List.getElem?_map,
    List.getElem?_eq_getElem hlt]
  simp [List.getElem_indexOf hlt]

/-! ### Unfolding lemmas for the engine steps -/

namespace ClarkWright

theorem constraints_met_iff {G : VGraph} {cfg : CWConfig} {s : CWState}
    {ex nw : Node} :
    constraints_met G cfg s ex nw = true ↔
      (nw ∉ routeNodes (routeAt s (s.assign ex)) ∧
       (qTruthy cfg.load_capacity = true →
         (routeAt s (s.assign ex)).load + G.demand nw ≤ capQ cfg) ∧
       (qTruthy cfg.duration = true →
         (routeAt s (s.assign ex)).time + G.time ex nw + G.time nw Sink
           + G.service_time nw - G.time ex Sink ≤ durQ cfg) ∧
       (zTruthy cfg.num_stops = true →
         ((routeNodes (routeAt s (s.assign ex))).card : ℤ) - 2 + 1
           ≤ stopsZ cfg)) := by
  simp only [constraints_met]
  split_ifs with h1 h2 h3 h4
  · simp only [Bool.false_eq_true, false_iff]
    intro hc
    exact hc.1 h1
  · simp only [Bool.false_eq_true, false_iff]
    intro hc
    exact absurd (hc.2.1 h2.1) (not_le.mpr h2.2)
  · simp only [Bool.false_eq_true, false_iff]
    intro hc
    exact absurd (hc.2.2.1 h3.1) (not_le.mpr h3.2)
  · simp only [Bool.false_eq_true, false_iff]
    intro hc
    exact absurd (hc.2.2.2 h4.1) (not_le.mpr h4.2)
  · simp only [true_iff]
    push_neg at h2 h3 h4
    exact ⟨h1, h2, h3, h4⟩

theorem merge_route_eq_sink (G : VGraph) (cfg : CWConfig) (s : CWState)
    (ex nw : Node) :
    merge_route G cfg s ex nw Sink =
      { routes := s.routes.set (s.assign ex)
          { edges := (addPathEdges (routeAt s (s.assign ex)).edges
              [ex, nw, Sink]).erase (ex, Sink)
            cost := (routeAt s (s.assign ex)).cost +
              (G.cost ex nw + G.cost nw Sink - G.cost ex Sink)
            load := if qTruthy cfg.load_capacity then
                (routeAt s (s.assign ex)).load + G.demand nw
              else (routeAt s (s.assign ex)).load
            time := if qTruthy cfg.duration then
                (routeAt s (s.assign ex)).time +
                  (G.time ex nw + G.time nw Sink + G.service_time nw
                    - G.time ex Sink)
              else (routeAt s (s.assign ex)).time
            name := (routeAt s (s.assign ex)).name }
        assign := fun w => if w = nw then s.assign ex else s.assign w
        processed := if ex ∈ s.processed ++ [nw] then s.processed ++ [nw]
          else s.processed ++ [nw] ++ [ex] } := by
  unfold merge_route
  have hss : (Sink : Node) ≠ Source := by decide
  simp only [if_pos rfl, if_neg hss]
  by_cases hq : qTruthy cfg.load_capacity = true <;>
    by_cases hd : qTruthy cfg.duration = true <;>
      simp [hq, hd]

theorem merge_route_eq_source (G : VGraph) (cfg : CWConfig) (s : CWState)
    (ex nw : Node) :
    merge_route G cfg s ex nw Source =
      { routes := s.routes.set (s.assign ex)
          { edges := (addPathEdges (routeAt s (s.assign ex)).edges
              [Source, nw, ex]).erase (Source, ex)
            cost := (routeAt s (s.assign ex)).cost +
              (G.cost nw ex + G.cost Source nw - G.cost Source ex)
            load := if qTruthy cfg.load_capacity then
                (routeAt s (s.assign ex)).load + G.demand nw
              else (routeAt s (s.assign ex)).load
            time := if qTruthy cfg.duration then
                (routeAt s (s.assign ex)).time +
                  (G.time ex nw + G.time nw Sink + G.service_time nw
                    - G.time ex Sink)
              else (routeAt s (s.assign ex)).time
            name := (routeAt s (s.assign ex)).name }
        assign := fun w => if w = nw then s.assign ex else s.assign w
        processed := if ex ∈ s.processed ++ [nw] then s.processed ++ [nw]
          else s.processed ++ [nw] ++ [ex] } := by
  unfold merge_route
  have hss : (Source : Node) ≠ Sink := by decide
  simp only [if_pos rfl, if_neg hss]
  by_cases hq : qTruthy cfg.load_capacity = true <;>
    by_cases hd : qTruthy cfg.duration = true <;>
      simp [hq, hd]

/-! ### The loop invariant -/

/-- `cs` is the customer sequence of the route stored at arena index
`idx`: the route's edges are exactly the consecutive pairs of
`Source :: cs ++ [Sink]`, the customers assigned to `idx` are exactly the
members of `cs`, and the `load` attribute is the summed demand. -/
def RouteSpecAt (G : VGraph) (cfg : CWConfig) (s : CWState) (idx : ℕ)
    (cs : List Node) : Prop :=
  cs ≠ [] ∧ cs.Nodup ∧ (∀ c ∈ cs, c ∈ customers G) ∧
  (routeAt s idx).edges = (pathPairs (Source :: cs ++ [Sink])).toFinset ∧
  (∀ w ∈ customers G, (w ∈ cs ↔ s.assign w = idx)) ∧
  (qTruthy cfg.load_capacity = true →
    (routeAt s idx).load = (cs.map G.demand).sum)

/-- The loop invariant of `ClarkWright.run`: the arena has one slot per
customer, every assigned index is in range and carries a simple
Source-to-Sink path whose customers are exactly the customers assigned to
it, and a customer not yet processed still owns, alone, its original
round-trip route. -/
def Inv (G : VGraph) (cfg : CWConfig) (s : CWState) : Prop :=
  s.routes.length = (customers G).length ∧
  (∀ v ∈ customers G, s.assign v < s.routes.length) ∧
  (∀ v ∈ customers G, ∃ cs, RouteSpecAt G cfg s (s.assign v) cs) ∧
  (∀ v ∈ customers G, v ∉ s.processed →
    s.assign v = (customers G).indexOf v ∧
    routeAt s (s.assign v) = initRoute G cfg v ∧
    ∀ w ∈ customers G, s.assign w = s.assign v → w = v)

theorem inv_init (G : VGraph) (cfg : CWConfig) :
    Inv G cfg (initialize_routes G cfg) := by
  refine ⟨by simp [initialize_routes], ?_, ?_, ?_⟩
  · intro v hv
    simpa [initialize_routes] using List.indexOf_lt_length.mpr hv
  · intro v hv
    refine ⟨[v], by simp, by simp, by simpa using hv, ?_, ?_, ?_⟩
    · show (routeAt (initialize_routes G cfg)
        ((customers G).indexOf v)).edges = _
      rw [show routeAt (initialize_routes G cfg) ((customers G).indexOf v)
          = initRoute G cfg v from getD_map_indexOf hv]
      simp [initRoute, addPathEdges]
    · intro w hw
      simp only [initialize_routes, List.mem_singleton]
      exact ⟨fun he => he ▸ rfl,
        fun he => (List.indexOf_inj hw hv).mp he⟩
    · intro hq
      show (routeAt (initialize_routes G cfg)
        ((customers G).indexOf v)).load = _
      rw [show routeAt (initialize_routes G cfg) ((customers G).indexOf v)
          = initRoute G cfg v from getD_map_indexOf hv]
      simp [initRoute, hq]
  · intro v hv _
    refine ⟨rfl, getD_map_indexOf hv, ?_⟩
    intro w hw he
    exact (List.indexOf_inj hw hv).mp he

end ClarkWright

/-! ### Splicing the edge set of a route -/

theorem erase_union_pairs {P : List GEdge} {i j : Node}
    (hP : (i, Sink) ∉ P) (hjS : j ≠ Sink) (hji : j ≠ i) :
    ((P ++ [(i, Sink)]).toFinset ∪
        ([(i, j), (j, Sink)] : List GEdge).toFinset).erase (i, Sink)
      = ((P ++ [(i, j)]) ++ [(j, Sink)]).toFinset := by
  have h1 : ((i, j) : GEdge) ≠ (i, Sink) := by simp [hjS]
  have h2 : ((j, Sink) : GEdge) ≠ (i, Sink) := by simp [hji]
  ext e
  by_cases he : e = (i, Sink)
  · subst he
    simp [hP, h1.symm, h2.symm, Ne.symm hji, hjS]
  · simp only [Finset.mem_erase, Finset.mem_union, List.mem_toFinset,
      List.mem_append, List.mem_singleton, List.mem_cons, List.not_mem_nil,
      or_false, ne_eq, he, not_false_eq_true, true_and]
    tauto

theorem erase_union_pairs_src {Q : List GEdge} {i j : Node}
    (hQ : (Source, j) ∉ Q) (hij : i ≠ j) (hiS : i ≠ Source) :
    (((Source, j) :: Q).toFinset ∪
        ([(Source, i), (i, j)] : List GEdge).toFinset).erase (Source, j)
      = ((Source, i) :: (i, j) :: Q).toFinset := by
  have h1 : ((Source, i) : GEdge) ≠ (Source, j) := by simp [hij]
  have h2 : ((i, j) : GEdge) ≠ (Source, j) := by simp [hiS]
  ext e
  by_cases he : e = (Source, j)
  · subst he
    simp [hQ, h1.symm, h2.symm, hij, Ne.symm hiS]
  · simp only [Finset.mem_erase, Finset.mem_union, List.mem_toFinset,
      List.mem_cons, List.mem_singleton, List.not_mem_nil, or_false, ne_eq,
      he, not_false_eq_true, true_and]
    tauto

namespace ClarkWright

theorem inv_merge_sink {G : VGraph} {cfg : CWConfig} {s : CWState}
    {i j : Node} (hInv : Inv G cfg s)
    (hi : i ∈ customers G) (hj : j ∈ customers G)
    (hjp : j ∉ s.processed)
    (hcm : constraints_met G cfg s i j = true)
    (hpred : (i, Sink) ∈ (routeAt s (s.assign i)).edges) :
    Inv G cfg (merge_route G cfg s i j Sink) := by
  obtain ⟨hlen, hbound, hspec, hB⟩ := hInv
  obtain ⟨csI, hne, hnd, hcust, hedges, hpart, hload⟩ := hspec i hi
  have hidx : s.assign i < s.routes.length := hbound i hi
  have hnotin := (constraints_met_iff.mp hcm).1
  have hjS : j ≠ Source := (mem_customers.mp hj).2.1
  have hjK : j ≠ Sink := (mem_customers.mp hj).2.2
  have hiS : i ≠ Source := (mem_customers.mp hi).2.1
  have hiK : i ≠ Sink := (mem_customers.mp hi).2.2
  have hnodes : routeNodes (routeAt s (s.assign i))
      = (Source :: csI ++ [Sink]).toFinset := by
    rw [routeNodes, hedges]
    exact pathPairs_nodes (by simp)
  have hjcs : j ∉ csI := by
    intro hmem
    exact hnotin (by rw [hnodes]; simp [hmem])
  have hici : i ∈ csI := (hpart i hi).mpr rfl
  have hji : j ≠ i := fun he => hjcs (he ▸ hici)
  have hKcs : Sink ∉ csI := fun hm =>
    absurd rfl (mem_customers.mp (hcust _ hm)).2.2
  have hSinkNot : Sink ∉ Source :: csI := by
    simp only [List.mem_cons, not_or]
    exact ⟨by decide, hKcs⟩
  obtain ⟨l1, hl1⟩ := pathPairs_last (l := Source :: csI) hSinkNot
    (by rw [hedges] at hpred; simpa using hpred)
  obtain ⟨cs1, hcs1⟩ : ∃ cs1, csI = cs1 ++ [i] := by
    cases l1 with
    | nil =>
      exfalso
      rw [List.nil_append] at hl1
      injection hl1 with h1 h2
      exact hiS h1.symm
    | cons hd t =>
      rw [List.cons_append] at hl1
      injection hl1 with h1 h2
      exact ⟨t, h2⟩
  have hPnotin : (i, Sink) ∉ pathPairs ((Source :: cs1) ++ [i]) := by
    intro hm
    have hmm := pathPairs_mem_snd hm
    apply hSinkNot
    rw [hcs1]
    simpa using hmm
  have hchain1 : Source :: csI ++ [Sink] = (Source :: cs1) ++ [i, Sink] := by
    simp [hcs1]
  have hchain2 : Source :: (csI ++ [j]) ++ [Sink]
      = ((Source :: cs1) ++ [i]) ++ [j, Sink] := by
    simp [hcs1]
  have hnewedges :
      (addPathEdges (routeAt s (s.assign i)).edges [i, j, Sink]).erase
          (i, Sink)
        = (pathPairs (Source :: (csI ++ [j]) ++ [Sink])).toFinset := by
    simp only [addPathEdges]
    rw [hedges, hchain1, hchain2, pathPairs_append_pair,
      pathPairs_append_pair]
    have hx : ((Source :: cs1) ++ [i]) ++ [j] = (Source :: cs1) ++ [i, j] := by
      simp
    rw [hx, pathPairs_append_pair]
    exact erase_union_pairs hPnotin hjK hji
  set s' := merge_route G cfg s i j Sink with hs'
  have hassign' : ∀ w, s'.assign w
      = if w = j then s.assign i else s.assign w := by
    intro w
    rw [hs', merge_route_eq_sink]
  have hlen' : s'.routes.length = s.routes.length := by
    rw [hs', merge_route_eq_sink]
    simp
  have hRA_ne : ∀ k, k ≠ s.assign i → routeAt s' k = routeAt s k := by
    intro k hk
    rw [hs', merge_route_eq_sink]
    show (s.routes.set (s.assign i) _).getD k dRoute = _
    exact getD_set_ne (Ne.symm hk)
  have hRA_edges : (routeAt s' (s.assign i)).edges
      = (pathPairs (Source :: (csI ++ [j]) ++ [Sink])).toFinset := by
    rw [hs', merge_route_eq_sink]
    show ((s.routes.set (s.assign i) _).getD (s.assign i) dRoute).edges = _
    rw [getD_set_self hidx]
    exact hnewedges
  have hRA_load : qTruthy cfg.load_capacity = true →
      (routeAt s' (s.assign i)).load = ((csI ++ [j]).map G.demand).sum := by
    intro hq
    rw [hs', merge_route_eq_sink]
    show ((s.routes.set (s.assign i) _).getD (s.assign i) dRoute).load = _
    rw [getD_set_self hidx]
    show (if qTruthy cfg.load_capacity then
        (routeAt s (s.assign i)).load + G.demand j
      else (routeAt s (s.assign i)).load) = _
    rw [if_pos hq, hload hq]
    simp
  have hproc' : s'.processed
      = if i ∈ s.processed ++ [j] then s.processed ++ [j]
        else s.processed ++ [j] ++ [i] := by
    rw [hs', merge_route_eq_sink]
  have hprocmem : ∀ v, v ∉ s'.processed →
      v ∉ s.processed ∧ v ≠ j ∧ v ≠ i := by
    intro v hv
    rw [hproc'] at hv
    by_cases hip : i ∈ s.processed ++ [j]
    · rw [if_pos hip] at hv
      simp only [List.mem_append, List.mem_singleton, not_or] at hv
      refine ⟨hv.1, hv.2, ?_⟩
      intro he
      rw [he] at hv
      rcases List.mem_append.mp hip with h | h
      · exact hv.1 h
      · exact hv.2 (List.mem_singleton.mp h)
    · rw [if_neg hip] at hv
      simp only [List.mem_append, List.mem_singleton, not_or] at hv
      exact ⟨hv.1.1, hv.1.2, hv.2⟩
  refine ⟨?_, ?_, ?_, ?_⟩
  · rw [hlen']
    exact hlen
  · intro v hv
    rw [hassign' v, hlen']
    split_ifs
    · exact hidx
    · exact hbound v hv
  · intro v hv
    by_cases hva : s'.assign v = s.assign i
    · rw [hva]
      refine ⟨csI ++ [j], by simp, ?_, ?_, hRA_edges, ?_, hRA_load⟩
      · simp [List.nodup_append, hnd, hjcs]
      · intro c hc
        rcases List.mem_append.mp hc with h | h
        · exact hcust c h
        · rw [List.mem_singleton.mp h]
          exact hj
      · intro w hw
        rw [hassign' w]
        by_cases hwj : w = j
        · subst hwj
          simp
        · rw [if_neg hwj]
          constructor
          · intro hm
            rcases List.mem_append.mp hm with h | h
            · exact (hpart w hw).mp h
            · exact absurd (List.mem_singleton.mp h) hwj
          · intro he
            exact List.mem_append_left _ ((hpart w hw).mpr he)
    · have hvj : v ≠ j := by
        intro he
        exact hva (by rw [hassign' v, if_pos he])
      have hvassign : s'.assign v = s.assign v := by
        rw [hassign' v, if_neg hvj]
      have hne2 : s.assign v ≠ s.assign i := by
        rw [← hvassign]
        exact hva
      obtain ⟨csV, hneV, hndV, hcustV, hedgesV, hpartV, hloadV⟩ := hspec v hv
      have hRAv : routeAt s' (s.assign v) = routeAt s (s.assign v) :=
        hRA_ne _ hne2
      rw [hvassign]
      refine ⟨csV, hneV, hndV, hcustV, ?_, ?_, ?_⟩
      · rw [hRAv]
        exact hedgesV
      · intro w hw
        rw [hassign' w]
        by_cases hwj : w = j
        · rw [if_pos hwj, hwj]
          constructor
          · intro hjm
            exfalso
            have h1 := (hpartV j hj).mp hjm
            exact hvj ((hB j hj hjp).2.2 v hv h1.symm)
          · intro he
            exact absurd he (Ne.symm hne2)
        · rw [if_neg hwj]
          exact hpartV w hw
      · intro hq
        rw [hRAv]
        exact hloadV hq
  · intro v hv hvp
    obtain ⟨hvnp, hvj, hvi⟩ := hprocmem v hvp
    obtain ⟨hasv, hroute, halone⟩ := hB v hv hvnp
    have hvassign : s'.assign v = s.assign v := by
      rw [hassign' v, if_neg hvj]
    have hnei : s.assign v ≠ s.assign i := by
      intro he
      exact hvi (halone i hi he.symm).symm
    refine ⟨?_, ?_, ?_⟩
    · rw [hvassign]
      exact hasv
    · rw [hvassign, hRA_ne _ hnei]
      exact hroute
    · intro w hw he
      rw [hvassign, hassign' w] at he
      by_cases hwj : w = j
      · rw [if_pos hwj] at he
        exact absurd (halone i hi he) (Ne.symm hvi)
      · rw [if_neg hwj] at he
        exact halone w hw he

end ClarkWright

namespace ClarkWright

theorem inv_merge_source {G : VGraph} {cfg : CWConfig} {s : CWState}
    {i j : Node} (hInv : Inv G cfg s)
    (hi : i ∈ customers G) (hj : j ∈ customers G)
    (hip : i ∉ s.processed)
    (hcm : constraints_met G cfg s j i = true)
    (hsucc : (Source, j) ∈ (routeAt s (s.assign j)).edges) :
    Inv G cfg (merge_route G cfg s j i Source) := by
  obtain ⟨hlen, hbound, hspec, hB⟩ := hInv
  obtain ⟨csJ, hne, hnd, hcust, hedges, hpart, hload⟩ := hspec j hj
  have hidx : s.assign j < s.routes.length := hbound j hj
  have hnotin := (constraints_met_iff.mp hcm).1
  have hjS : j ≠ Source := (mem_customers.mp hj).2.1
  have hjK : j ≠ Sink := (mem_customers.mp hj).2.2
  have hiS : i ≠ Source := (mem_customers.mp hi).2.1
  have hiK : i ≠ Sink := (mem_customers.mp hi).2.2
  have hnodes : routeNodes (routeAt s (s.assign j))
      = (Source :: csJ ++ [Sink]).toFinset := by
    rw [routeNodes, hedges]
    exact pathPairs_nodes (by simp)
  have hics : i ∉ csJ := by
    intro hmem
    exact hnotin (by rw [hnodes]; simp [hmem])
  have hjcj : j ∈ csJ := (hpart j hj).mpr rfl
  have hij : i ≠ j := fun he => hics (he ▸ hjcj)
  have hScs : Source ∉ csJ ++ [Sink] := by
    simp only [List.mem_append, List.mem_singleton, not_or]
    refine ⟨fun hm => absurd rfl (mem_customers.mp (hcust _ hm)).2.1,
      by decide⟩
  obtain ⟨l1, hl1⟩ := pathPairs_head (l := csJ ++ [Sink]) hScs
    (by rw [hedges] at hsucc; simpa using hsucc)
  obtain ⟨t, hcsJ⟩ : ∃ t, csJ = j :: t := by
    cases csJ with
    | nil => exact absurd rfl hne
    | cons c u =>
      rw [List.cons_append] at hl1
      injection hl1 with h1 h2
      exact ⟨u, by rw [h1]⟩
  have hQnotin : (Source, j) ∉ pathPairs (j :: t ++ [Sink]) := by
    intro hm
    have hmm := pathPairs_mem_fst hm
    apply hScs
    rw [hcsJ]
    simpa using hmm
  have hnewedges :
      (addPathEdges (routeAt s (s.assign j)).edges [Source, i, j]).erase
          (Source, j)
        = (pathPairs (Source :: (i :: csJ) ++ [Sink])).toFinset := by
    simp only [addPathEdges]
    rw [hedges, hcsJ]
    show ((pathPairs (Source :: j :: (t ++ [Sink]))).toFinset ∪
        (pathPairs [Source, i, j]).toFinset).erase (Source, j)
      = (pathPairs (Source :: i :: j :: (t ++ [Sink]))).toFinset
    rw [pathPairs_cons_cons]
    show ((((Source, j) :: pathPairs (j :: (t ++ [Sink]))).toFinset ∪
        ([(Source, i), (i, j)] : List GEdge).toFinset).erase (Source, j)) = _
    exact erase_union_pairs_src hQnotin hij hiS
  set s' := merge_route G cfg s j i Source with hs'
  have hassign' : ∀ w, s'.assign w
      = if w = i then s.assign j else s.assign w := by
    intro w
    rw [hs', merge_route_eq_source]
  have hlen' : s'.routes.length = s.routes.length := by
    rw [hs', merge_route_eq_source]
    simp
  have hRA_ne : ∀ k, k ≠ s.assign j → routeAt s' k = routeAt s k := by
    intro k hk
    rw [hs', merge_route_eq_source]
    show (s.routes.set (s.assign j) _).getD k dRoute = _
    exact getD_set_ne (Ne.symm hk)
  have hRA_edges : (routeAt s' (s.assign j)).edges
      = (pathPairs (Source :: (i :: csJ) ++ [Sink])).toFinset := by
    rw [hs', merge_route_eq_source]
    show ((s.routes.set (s.assign j) _).getD (s.assign j) dRoute).edges = _
    rw [getD_set_self hidx]
    exact hnewedges
  have hRA_load : qTruthy cfg.load_capacity = true →
      (routeAt s' (s.assign j)).load = ((i :: csJ).map G.demand).sum := by
    intro hq
    rw [hs', merge_route_eq_source]
    show ((s.routes.set (s.assign j) _).getD (s.assign j) dRoute).load = _
    rw [getD_set_self hidx]
    show (if qTruthy cfg.load_capacity then
        (routeAt s (s.assign j)).load + G.demand i
      else (routeAt s (s.assign j)).load) = _
    rw [if_pos hq, hload hq]
    simp
    ring
  have hproc' : s'.processed
      = if j ∈ s.processed ++ [i] then s.processed ++ [i]
        else s.processed ++ [i] ++ [j] := by
    rw [hs', merge_route_eq_source]
  have hprocmem : ∀ v, v ∉ s'.processed →
      v ∉ s.processed ∧ v ≠ i ∧ v ≠ j := by
    intro v hv
    rw [hproc'] at hv
    by_cases hjp2 : j ∈ s.processed ++ [i]
    · rw [if_pos hjp2] at hv
      simp only [List.mem_append, List.mem_singleton, not_or] at hv
      refine ⟨hv.1, hv.2, ?_⟩
      intro he
      rw [he] at hv
      rcases List.mem_append.mp hjp2 with h | h
      · exact hv.1 h
      · exact hv.2 (List.mem_singleton.mp h)
    · rw [if_neg hjp2] at hv
      simp only [List.mem_append, List.mem_singleton, not_or] at hv
      exact ⟨hv.1.1, hv.1.2, hv.2⟩
  refine ⟨?_, ?_, ?_, ?_⟩
  · rw [hlen']
    exact hlen
  · intro v hv
    rw [hassign' v, hlen']
    split_ifs
    · exact hidx
    · exact hbound v hv
  · intro v hv
    by_cases hva : s'.assign v = s.assign j
    · rw [hva]
      refine ⟨i :: csJ, by simp, ?_, ?_, hRA_edges, ?_, hRA_load⟩
      · simp [List.nodup_cons, hnd, hics]
      · intro c hc
        rcases List.mem_cons.mp hc with h | h
        · rw [h]
          exact hi
        · exact hcust c h
      · intro w hw
        rw [hassign' w]
        by_cases hwi : w = i
        · simp [hwi]
        · rw [if_neg hwi]
          constructor
          · intro hm
            rcases List.mem_cons.mp hm with h | h
            · exact absurd h hwi
            · exact (hpart w hw).mp h
          · intro he
            exact List.mem_cons_of_mem _ ((hpart w hw).mpr he)
    · have hvi : v ≠ i := by
        intro he
        exact hva (by rw [hassign' v, if_pos he])
      have hvassign : s'.assign v = s.assign v := by
        rw [hassign' v, if_neg hvi]
      have hne2 : s.assign v ≠ s.assign j := by
        rw [← hvassign]
        exact hva
      obtain ⟨csV, hneV, hndV, hcustV, hedgesV, hpartV, hloadV⟩ := hspec v hv
      have hRAv : routeAt s' (s.assign v) = routeAt s (s.assign v) :=
        hRA_ne _ hne2
      rw [hvassign]
      refine ⟨csV, hneV, hndV, hcustV, ?_, ?_, ?_⟩
      · rw [hRAv]
        exact hedgesV
      · intro w hw
        rw [hassign' w]
        by_cases hwi : w = i
        · rw [if_pos hwi, hwi]
          constructor
          · intro him
            exfalso
            have h1 := (hpartV i hi).mp him
            exact hvi ((hB i hi hip).2.2 v hv h1.symm)
          · intro he
            exact absurd he (Ne.symm hne2)
        · rw [if_neg hwi]
          exact hpartV w hw
      · intro hq
        rw [hRAv]
        exact hloadV hq
  · intro v hv hvp
    obtain ⟨hvnp, hvi, hvj⟩ := hprocmem v hvp
    obtain ⟨hasv, hroute, halone⟩ := hB v hv hvnp
    have hvassign : s'.assign v = s.assign v := by
      rw [hassign' v, if_neg hvi]
    have hnej : s.assign v ≠ s.assign j := by
      intro he
      exact hvj (halone j hj he.symm).symm
    refine ⟨?_, ?_, ?_⟩
    · rw [hvassign]
      exact hasv
    · rw [hvassign, hRA_ne _ hnej]
      exact hroute
    · intro w hw he
      rw [hvassign, hassign' w] at he
      by_cases hwi : w = i
      · rw [if_pos hwi] at he
        exact absurd (halone j hj he) (Ne.symm hvj)
      · rw [if_neg hwi] at he
        exact halone w hw he

end ClarkWright

namespace ClarkWright

theorem mem_candidate_edges {G : VGraph} {e : GEdge} :
    e ∈ candidate_edges G ↔
      e ∈ G.edges ∧ e.1 ≠ Source ∧ e.2 ≠ Sink := by
  simp [candidate_edges]

theorem get_savings_mem {G : VGraph} (hWF : WF G) {e : GEdge}
    (he : e ∈ get_savings G) :
    e.1 ∈ customers G ∧ e.2 ∈ customers G ∧ e ∈ G.edges := by
  have hmem : e ∈ candidate_edges G := by
    rw [get_savings] at he
    exact List.mem_mergeSort.mp he
  obtain ⟨hE, hP1, hP2⟩ := mem_candidate_edges.mp hmem
  obtain ⟨-, -, hends, hdirs, -⟩ := hWF
  exact ⟨mem_customers.mpr ⟨(hends e hE).1, hP1, (hdirs e hE).2⟩,
    mem_customers.mpr ⟨(hends e hE).2, (hdirs e hE).1, hP2⟩, hE⟩

theorem inv_process_edge {G : VGraph} {cfg : CWConfig} {s : CWState}
    {i j : Node} (hInv : Inv G cfg s)
    (hi : i ∈ customers G) (hj : j ∈ customers G) :
    Inv G cfg (process_edge G cfg s i j) := by
  unfold process_edge
  split_ifs with h1 h2
  · exact inv_merge_sink hInv hi hj h1.1 h1.2.1 h1.2.2
  · exact inv_merge_source hInv hi hj h2.2.1 h2.2.2.1 h2.2.2.2
  · exact hInv

theorem inv_fold {G : VGraph} {cfg : CWConfig} :
    ∀ {l : List GEdge} {s : CWState}, Inv G cfg s →
      (∀ e ∈ l, e.1 ∈ customers G ∧ e.2 ∈ customers G) →
      Inv G cfg (fold_edges G cfg s l) := by
  intro l
  induction l with
  | nil =>
    intro s h _
    exact h
  | cons e t ih =>
    intro s h hall
    show Inv G cfg (fold_edges G cfg (process_edge G cfg s e.1 e.2) t)
    exact ih
      (inv_process_edge h (hall e (List.mem_cons_self e t)).1
        (hall e (List.mem_cons_self e t)).2)
      (fun e' he' => hall e' (List.mem_cons_of_mem _ he'))

theorem inv_fold_of_prefix {G : VGraph} {cfg : CWConfig}
    (hWF : WF G) {pfx rest : List GEdge}
    (hsplit : get_savings G = pfx ++ rest) :
    Inv G cfg (fold_edges G cfg (initialize_routes G cfg) pfx) := by
  apply inv_fold (inv_init G cfg)
  intro e he
  have hmem : e ∈ get_savings G := by
    rw [hsplit]
    exact List.mem_append_left _ he
  exact ⟨(get_savings_mem hWF hmem).1, (get_savings_mem hWF hmem).2.1⟩

theorem inv_run_state {G : VGraph} {cfg : CWConfig} (hWF : WF G) :
    Inv G cfg (run_state G cfg) :=
  inv_fold_of_prefix hWF (List.append_nil (get_savings G)).symm

end ClarkWright

/-! ### Capacity and stop-count bounds along the run -/

/-- The node endpoints of a set of edges. -/
def edgeNodes (E : Finset GEdge) : Finset Node :=
  E.image Prod.fst ∪ E.image Prod.snd

theorem routeNodes_eq_edgeNodes (r : Route) :
    routeNodes r = edgeNodes r.edges := rfl

theorem edgeNodes_mono {E F : Finset GEdge} (h : E ⊆ F) :
    edgeNodes E ⊆ edgeNodes F :=
  Finset.union_subset_union (Finset.image_subset_image h)
    (Finset.image_subset_image h)

theorem mem_edgeNodes_fst {E : Finset GEdge} {a b : Node}
    (h : (a, b) ∈ E) : a ∈ edgeNodes E := by
  exact Finset.mem_union_left _ (Finset.mem_image_of_mem _ h)

theorem mem_edgeNodes_snd {E : Finset GEdge} {a b : Node}
    (h : (a, b) ∈ E) : b ∈ edgeNodes E :=
  Finset.mem_union_right _ (Finset.mem_image_of_mem _ h)

theorem edgeNodes_union (E F : Finset GEdge) :
    edgeNodes (E ∪ F) = edgeNodes E ∪ edgeNodes F := by
  rw [edgeNodes, Finset.image_union, Finset.image_union]
  rw [edgeNodes, edgeNodes]
  ac_rfl

namespace ClarkWright

/-- Whenever the load attribute is maintained, every customer's current
route has load within capacity. -/
def CapInv (G : VGraph) (cfg : CWConfig) (s : CWState) : Prop :=
  ∀ v ∈ customers G, (routeAt s (s.assign v)).load ≤ capQ cfg

/-- Every customer's current route has at most `num_stops + 2` distinct
nodes (Source and Sink included). -/
def StopsInv (G : VGraph) (cfg : CWConfig) (s : CWState) : Prop :=
  ∀ v ∈ customers G,
    ((routeNodes (routeAt s (s.assign v))).card : ℤ) ≤ stopsZ cfg + 2

theorem cap_init {G : VGraph} {cfg : CWConfig}
    (hq : qTruthy cfg.load_capacity = true)
    (hd : ∀ v ∈ customers G, G.demand v ≤ capQ cfg) :
    CapInv G cfg (initialize_routes G cfg) := by
  intro v hv
  show ((((customers G).map (initRoute G cfg)).getD
    ((customers G).indexOf v) dRoute)).load ≤ capQ cfg
  rw [getD_map_indexOf hv, initRoute]
  simpa [hq] using hd v hv

end ClarkWright

theorem edgeNodes_merge_sink_subset {E : Finset GEdge} {i j : Node}
    (hpred : (i, Sink) ∈ E) :
    edgeNodes ((E ∪ (pathPairs [i, j, Sink]).toFinset).erase (i, Sink))
      ⊆ insert j (edgeNodes E) := by
  intro x hx
  have hx1 : x ∈ edgeNodes (E ∪ (pathPairs [i, j, Sink]).toFinset) :=
    edgeNodes_mono (Finset.erase_subset _ _) hx
  rw [edgeNodes_union] at hx1
  rcases Finset.mem_union.mp hx1 with h | h
  · exact Finset.mem_insert_of_mem h
  · have h' : x = i ∨ x = j ∨ x = Sink := by
      simp only [edgeNodes, pathPairs_cons_cons, pathPairs_single,
        List.toFinset_cons, List.toFinset_nil, insert_emptyc_eq,
        Finset.mem_union, Finset.mem_image, Finset.mem_insert,
        Finset.mem_singleton] at h
      rcases h with ⟨e, he, hxe⟩ | ⟨e, he, hxe⟩ <;>
        rcases he with he | he <;> subst he <;> subst hxe <;> simp
    rcases h' with h' | h' | h'
    · exact Finset.mem_insert_of_mem (h' ▸ mem_edgeNodes_fst hpred)
    · exact h' ▸ Finset.mem_insert_self _ _
    · exact Finset.mem_insert_of_mem (h' ▸ mem_edgeNodes_snd hpred)

theorem edgeNodes_merge_source_subset {E : Finset GEdge} {i j : Node}
    (hsucc : (Source, j) ∈ E) :
    edgeNodes ((E ∪ (pathPairs [Source, i, j]).toFinset).erase (Source, j))
      ⊆ insert i (edgeNodes E) := by
  intro x hx
  have hx1 : x ∈ edgeNodes (E ∪ (pathPairs [Source, i, j]).toFinset) :=
    edgeNodes_mono (Finset.erase_subset _ _) hx
  rw [edgeNodes_union] at hx1
  rcases Finset.mem_union.mp hx1 with h | h
  · exact Finset.mem_insert_of_mem h
  · have h' : x = Source ∨ x = i ∨ x = j := by
      simp only [edgeNodes, pathPairs_cons_cons, pathPairs_single,
        List.toFinset_cons, List.toFinset_nil, insert_emptyc_eq,
        Finset.mem_union, Finset.mem_image, Finset.mem_insert,
        Finset.mem_singleton] at h
      rcases h with ⟨e, he, hxe⟩ | ⟨e, he, hxe⟩ <;>
        rcases he with he | he <;> subst he <;> subst hxe <;> simp
    rcases h' with h' | h' | h'
    · exact Finset.mem_insert_of_mem (h' ▸ mem_edgeNodes_fst hsucc)
    · exact h' ▸ Finset.mem_insert_self _ _
    · exact Finset.mem_insert_of_mem (h' ▸ mem_edgeNodes_snd hsucc)

namespace ClarkWright

theorem cap_merge_sink {G : VGraph} {cfg : CWConfig} {s : CWState}
    {i j : Node} (hq : qTruthy cfg.load_capacity = true)
    (hidx : s.assign i < s.routes.length)
    (hcm : constraints_met G cfg s i j = true)
    (hcap : CapInv G cfg s) :
    CapInv G cfg (merge_route G cfg s i j Sink) := by
  intro v hv
  rw [merge_route_eq_sink]
  show ((s.routes.set (s.assign i) _).getD
    (if v = j then s.assign i else s.assign v) dRoute).load ≤ capQ cfg
  by_cases hva : (if v = j then s.assign i else s.assign v) = s.assign i
  · rw [hva, getD_set_self hidx]
    show (if qTruthy cfg.load_capacity then
        (routeAt s (s.assign i)).load + G.demand j
      else (routeAt s (s.assign i)).load) ≤ capQ cfg
    rw [if_pos hq]
    exact (constraints_met_iff.mp hcm).2.1 hq
  · have hvj : v ≠ j := fun he => hva (if_pos he)
    rw [if_neg hvj] at hva ⊢
    rw [getD_set_ne (Ne.symm hva)]
    exact hcap v hv

theorem cap_merge_source {G : VGraph} {cfg : CWConfig} {s : CWState}
    {i j : Node} (hq : qTruthy cfg.load_capacity = true)
    (hidx : s.assign j < s.routes.length)
    (hcm : constraints_met G cfg s j i = true)
    (hcap : CapInv G cfg s) :
    CapInv G cfg (merge_route G cfg s j i Source) := by
  intro v hv
  rw [merge_route_eq_source]
  show ((s.routes.set (s.assign j) _).getD
    (if v = i then s.assign j else s.assign v) dRoute).load ≤ capQ cfg
  by_cases hva : (if v = i then s.assign j else s.assign v) = s.assign j
  · rw [hva, getD_set_self hidx]
    show (if qTruthy cfg.load_capacity then
        (routeAt s (s.assign j)).load + G.demand i
      else (routeAt s (s.assign j)).load) ≤ capQ cfg
    rw [if_pos hq]
    exact (constraints_met_iff.mp hcm).2.1 hq
  · have hvi : v ≠ i := fun he => hva (if_pos he)
    rw [if_neg hvi] at hva ⊢
    rw [getD_set_ne (Ne.symm hva)]
    exact hcap v hv

theorem cap_process_edge {G : VGraph} {cfg : CWConfig} {s : CWState}
    {i j : Node} (hq : qTruthy cfg.load_capacity = true)
    (hbound : ∀ v ∈ customers G, s.assign v < s.routes.length)
    (hi : i ∈ customers G) (hj : j ∈ customers G)
    (hcap : CapInv G cfg s) :
    CapInv G cfg (process_edge G cfg s i j) := by
  unfold process_edge
  split_ifs with h1 h2
  · exact cap_merge_sink hq (hbound i hi) h1.2.1 hcap
  · exact cap_merge_source hq (hbound j hj) h2.2.2.1 hcap
  · exact hcap

theorem cap_fold {G : VGraph} {cfg : CWConfig}
    (hq : qTruthy cfg.load_capacity = true) :
    ∀ {l : List GEdge} {s : CWState}, Inv G cfg s → CapInv G cfg s →
      (∀ e ∈ l, e.1 ∈ customers G ∧ e.2 ∈ customers G) →
      CapInv G cfg (fold_edges G cfg s l) := by
  intro l
  induction l with
  | nil =>
    intro s _ hc _
    exact hc
  | cons e t ih =>
    intro s hI hc hall
    show CapInv G cfg (fold_edges G cfg (process_edge G cfg s e.1 e.2) t)
    have h1 := (hall e (List.mem_cons_self e t)).1
    have h2 := (hall e (List.mem_cons_self e t)).2
    exact ih (inv_process_edge hI h1 h2)
      (cap_process_edge hq hI.2.1 h1 h2 hc)
      (fun e' he' => hall e' (List.mem_cons_of_mem _ he'))

theorem cap_run_state {G : VGraph} {cfg : CWConfig} (hWF : WF G)
    (hq : qTruthy cfg.load_capacity = true)
    (hd : ∀ v ∈ customers G, G.demand v ≤ capQ cfg) :
    CapInv G cfg (run_state G cfg) :=
  cap_fold hq (inv_init G cfg) (cap_init hq hd)
    (fun _ he => ⟨(get_savings_mem hWF he).1, (get_savings_mem hWF he).2.1⟩)

end ClarkWright

namespace ClarkWright

theorem stops_init {G : VGraph} {cfg : CWConfig}
    (hs1 : 1 ≤ stopsZ cfg) :
    StopsInv G cfg (initialize_routes G cfg) := by
  intro v hv
  have hv1 : v ≠ Source := (mem_customers.mp hv).2.1
  have hv2 : v ≠ Sink := (mem_customers.mp hv).2.2
  show ((routeNodes ((((customers G).map (initRoute G cfg)).getD
    ((customers G).indexOf v) dRoute))).card : ℤ) ≤ stopsZ cfg + 2
  rw [getD_map_indexOf hv]
  have hcard : (routeNodes (initRoute G cfg v)).card = 3 := by
    rw [routeNodes_eq_edgeNodes]
    have he : (initRoute G cfg v).edges
        = (pathPairs [Source, v, Sink]).toFinset := by
      simp [initRoute, addPathEdges]
    rw [he]
    have hn : edgeNodes (pathPairs [Source, v, Sink]).toFinset
        = ([Source, v, Sink] : List Node).toFinset :=
      pathPairs_nodes (by simp)
    rw [hn]
    rw [List.toFinset_cons, List.toFinset_cons, List.toFinset_cons,
      List.toFinset_nil]
    rw [Finset.card_insert_of_not_mem (by
      simp only [Finset.mem_insert, Finset.mem_singleton]
      push_neg
      exact ⟨Ne.symm hv1, by decide⟩),
      Finset.card_insert_of_not_mem (by simp [hv2])]
    simp
  rw [hcard]
  omega

theorem stops_merge_sink {G : VGraph} {cfg : CWConfig} {s : CWState}
    {i j : Node} (hz : zTruthy cfg.num_stops = true)
    (hidx : s.assign i < s.routes.length)
    (hcm : constraints_met G cfg s i j = true)
    (hpred : (i, Sink) ∈ (routeAt s (s.assign i)).edges)
    (hstops : StopsInv G cfg s) :
    StopsInv G cfg (merge_route G cfg s i j Sink) := by
  intro v hv
  rw [merge_route_eq_sink]
  show ((routeNodes ((s.routes.set (s.assign i) _).getD
    (if v = j then s.assign i else s.assign v) dRoute)).card : ℤ)
      ≤ stopsZ cfg + 2
  by_cases hva : (if v = j then s.assign i else s.assign v) = s.assign i
  · rw [hva, getD_set_self hidx]
    have hguard := (constraints_met_iff.mp hcm).2.2.2 hz
    show ((edgeNodes ((addPathEdges (routeAt s (s.assign i)).edges
      [i, j, Sink]).erase (i, Sink))).card : ℤ) ≤ stopsZ cfg + 2
    simp only [addPathEdges]
    rw [routeNodes_eq_edgeNodes] at hguard
    have hcard1 := le_trans
      (Finset.card_le_card (edgeNodes_merge_sink_subset hpred))
      (Finset.card_insert_le j (edgeNodes (routeAt s (s.assign i)).edges))
    omega
  · have hvj : v ≠ j := fun he => hva (if_pos he)
    rw [if_neg hvj] at hva ⊢
    rw [getD_set_ne (Ne.symm hva)]
    exact hstops v hv

end ClarkWright

namespace ClarkWright

theorem stops_merge_source {G : VGraph} {cfg : CWConfig} {s : CWState}
    {i j : Node} (hz : zTruthy cfg.num_stops = true)
    (hidx : s.assign j < s.routes.length)
    (hcm : constraints_met G cfg s j i = true)
    (hsucc : (Source, j) ∈ (routeAt s (s.assign j)).edges)
    (hstops : StopsInv G cfg s) :
    StopsInv G cfg (merge_route G cfg s j i Source) := by
  intro v hv
  rw [merge_route_eq_source]
  show ((routeNodes ((s.routes.set (s.assign j) _).getD
    (if v = i then s.assign j else s.assign v) dRoute)).card : ℤ)
      ≤ stopsZ cfg + 2
  by_cases hva : (if v = i then s.assign j else s.assign v) = s.assign j
  · rw [hva, getD_set_self hidx]
    have hguard := (constraints_met_iff.mp hcm).2.2.2 hz
    show ((edgeNodes ((addPathEdges (routeAt s (s.assign j)).edges
      [Source, i, j]).erase (Source, j))).card : ℤ) ≤ stopsZ cfg + 2
    simp only [addPathEdges]
    rw [routeNodes_eq_edgeNodes] at hguard
    have hcard1 := le_trans
      (Finset.card_le_card (edgeNodes_merge_source_subset hsucc))
      (Finset.card_insert_le i (edgeNodes (routeAt s (s.assign j)).edges))
    omega
  · have hvi : v ≠ i := fun he => hva (if_pos he)
    rw [if_neg hvi] at hva ⊢
    rw [getD_set_ne (Ne.symm hva)]
    exact hstops v hv

theorem stops_process_edge {G : VGraph} {cfg : CWConfig} {s : CWState}
    {i j : Node} (hz : zTruthy cfg.num_stops = true)
    (hbound : ∀ v ∈ customers G, s.assign v < s.routes.length)
    (hi : i ∈ customers G) (hj : j ∈ customers G)
    (hstops : StopsInv G cfg s) :
    StopsInv G cfg (process_edge G cfg s i j) := by
  unfold process_edge
  split_ifs with h1 h2
  · exact stops_merge_sink hz (hbound i hi) h1.2.1 h1.2.2 hstops
  · exact stops_merge_source hz (hbound j hj) h2.2.2.1 h2.2.2.2 hstops
  · exact hstops

theorem stops_fold {G : VGraph} {cfg : CWConfig}
    (hz : zTruthy cfg.num_stops = true) :
    ∀ {l : List GEdge} {s : CWState}, Inv G cfg s → StopsInv G cfg s →
      (∀ e ∈ l, e.1 ∈ customers G ∧ e.2 ∈ customers G) →
      StopsInv G cfg (fold_edges G cfg s l) := by
  intro l
  induction l with
  | nil =>
    intro s _ hc _
    exact hc
  | cons e t ih =>
    intro s hI hc hall
    show StopsInv G cfg (fold_edges G cfg (process_edge G cfg s e.1 e.2) t)
    have h1 := (hall e (List.mem_cons_self e t)).1
    have h2 := (hall e (List.mem_cons_self e t)).2
    exact ih (inv_process_edge hI h1 h2)
      (stops_process_edge hz hI.2.1 h1 h2 hc)
      (fun e' he' => hall e' (List.mem_cons_of_mem _ he'))

theorem stops_run_state {G : VGraph} {cfg : CWConfig} (hWF : WF G)
    (hz : zTruthy cfg.num_stops = true) (hs1 : 1 ≤ stopsZ cfg) :
    StopsInv G cfg (run_state G cfg) :=
  stops_fold hz (inv_init G cfg) (stops_init hs1)
    (fun _ he => ⟨(get_savings_mem hWF he).1, (get_savings_mem hWF he).2.1⟩)

end ClarkWright

namespace RoundTrip

theorem penalty_nonneg : (0 : ℚ) ≤ penalty := by norm_num [penalty]

theorem mem_addEdge {g : VGraph} {e f : GEdge} {c : ℚ} :
    f ∈ (addEdge g e c).edges ↔ f ∈ g.edges ∨ f = e := by
  simp [addEdge]

theorem addEdge_cost_self {g : VGraph} {e : GEdge} {c : ℚ} :
    (addEdge g e c).cost e.1 e.2 = c := by
  simp [addEdge]

theorem addEdge_cost_ne {g : VGraph} {e : GEdge} {c : ℚ} {a b : Node}
    (h : (a, b) ≠ e) : (addEdge g e c).cost a b = g.cost a b := by
  simp [addEdge, h]

theorem getOrAdd_mem {g : VGraph} {e : GEdge} :
    e ∈ (getOrAdd g e).2.edges := by
  rw [getOrAdd]
  split_ifs with h
  · exact h
  · exact mem_addEdge.mpr (Or.inr rfl)

theorem getOrAdd_mono {g : VGraph} {e f : GEdge} (h : f ∈ g.edges) :
    f ∈ (getOrAdd g e).2.edges := by
  rw [getOrAdd]
  split_ifs with h2
  · exact h
  · exact mem_addEdge.mpr (Or.inl h)

theorem getOrAdd_new {g : VGraph} {e f : GEdge}
    (h : f ∈ (getOrAdd g e).2.edges) : f ∈ g.edges ∨ f = e := by
  rw [getOrAdd] at h
  split_ifs at h with h2
  · exact Or.inl h
  · exact mem_addEdge.mp h

theorem getOrAdd_cost_stable {g : VGraph} {e : GEdge} {a b : Node}
    (h : (a, b) ∈ g.edges) :
    (getOrAdd g e).2.cost a b = g.cost a b := by
  rw [getOrAdd]
  split_ifs with h2
  · rfl
  · exact addEdge_cost_ne (fun he => h2 (by rw [← he]; exact h))

theorem getOrAdd_fst {g : VGraph} {e : GEdge} :
    (getOrAdd g e).2.cost e.1 e.2 = (getOrAdd g e).1 := by
  rw [getOrAdd]
  split_ifs with h
  · rfl
  · exact addEdge_cost_self

theorem getOrAdd_fst_of_missing {g : VGraph} {e : GEdge}
    (h : e ∉ g.edges) : (getOrAdd g e).1 = penalty := by
  rw [getOrAdd, if_neg h]

theorem getOrAdd_nonneg {g : VGraph} {e : GEdge}
    (h : ∀ f ∈ g.edges, 0 ≤ g.cost f.1 f.2) :
    (∀ f ∈ (getOrAdd g e).2.edges, 0 ≤ (getOrAdd g e).2.cost f.1 f.2)
      ∧ 0 ≤ (getOrAdd g e).1 := by
  rw [getOrAdd]
  split_ifs with h2
  · exact ⟨h, h _ h2⟩
  · constructor
    · intro f hf
      rcases mem_addEdge.mp hf with hm | hm
      · rw [addEdge_cost_ne (fun he => h2 (by rw [← he]; simpa using hm))]
        exact h f hm
      · subst hm
        rw [addEdge_cost_self]
        exact penalty_nonneg
    · exact penalty_nonneg

theorem snk_still_missing {g : VGraph} {v : Node} (h1 : v ≠ Source)
    (hm : (v, Sink) ∉ g.edges) :
    (v, Sink) ∉ (getOrAdd g (Source, v)).2.edges := by
  intro h
  rcases getOrAdd_new h with h' | h'
  · exact hm h'
  · exact h1 (congrArg Prod.fst h')

theorem step_of_depot {s : RTState} {v : Node}
    (h : v = Source ∨ v = Sink) : step s v = s := by
  rw [step, if_pos h]

theorem step_route_ne {s : RTState} {v w : Node} (h : w ≠ v) :
    (step s v).route w = s.route w := by
  rw [step]
  split_ifs with hg
  · rfl
  · simp [h]

theorem step_route_self {s : RTState} {v : Node} (h1 : v ≠ Source)
    (h2 : v ≠ Sink) :
    (step s v).route v =
      { edges := {(Source, v), (v, Sink)}
        cost := (getOrAdd s.g (Source, v)).1
          + (getOrAdd (getOrAdd s.g (Source, v)).2 (v, Sink)).1
        load := 0
        time := 0
        name := s.route_id + 1 } := by
  rw [step, if_neg (by simp [h1, h2])]
  simp

theorem step_mem_mono {s : RTState} (v : Node) {e : GEdge}
    (h : e ∈ s.g.edges) : e ∈ (step s v).g.edges := by
  rw [step]
  split_ifs with hg
  · exact h
  · exact getOrAdd_mono (getOrAdd_mono h)

theorem step_cost_stable {s : RTState} (v : Node) {a b : Node}
    (h : (a, b) ∈ s.g.edges) :
    (step s v).g.cost a b = s.g.cost a b := by
  rw [step]
  split_ifs with hg
  · rfl
  · show (getOrAdd (getOrAdd s.g (Source, v)).2 (v, Sink)).2.cost a b = _
    rw [getOrAdd_cost_stable (getOrAdd_mono h), getOrAdd_cost_stable h]

theorem step_new {s : RTState} {v : Node} {e : GEdge}
    (h : e ∈ (step s v).g.edges) :
    e ∈ s.g.edges ∨ e = (Source, v) ∨ e = (v, Sink) := by
  rw [step] at h
  split_ifs at h with hg
  · exact Or.inl h
  · have h' : e ∈ (getOrAdd (getOrAdd s.g (Source, v)).2 (v, Sink)).2.edges :=
      h
    rcases getOrAdd_new h' with h'' | h''
    · rcases getOrAdd_new h'' with h3 | h3
      · exact Or.inl h3
      · exact Or.inr (Or.inl h3)
    · exact Or.inr (Or.inr h'')

theorem step_nonneg {s : RTState} (v : Node)
    (h : ∀ f ∈ s.g.edges, 0 ≤ s.g.cost f.1 f.2) :
    ∀ f ∈ (step s v).g.edges, 0 ≤ (step s v).g.cost f.1 f.2 := by
  rw [step]
  split_ifs with hg
  · exact h
  · exact (getOrAdd_nonneg ((getOrAdd_nonneg h).1)).1

theorem step_self_facts {s : RTState} {v : Node} (h1 : v ≠ Source)
    (h2 : v ≠ Sink) :
    (Source, v) ∈ (step s v).g.edges ∧ (v, Sink) ∈ (step s v).g.edges ∧
      (step s v).g.cost Source v = (getOrAdd s.g (Source, v)).1 ∧
      (step s v).g.cost v Sink
        = (getOrAdd (getOrAdd s.g (Source, v)).2 (v, Sink)).1 := by
  rw [step, if_neg (by simp [h1, h2])]
  refine ⟨getOrAdd_mono getOrAdd_mem, getOrAdd_mem, ?_, ?_⟩
  · show (getOrAdd (getOrAdd s.g (Source, v)).2 (v, Sink)).2.cost Source v = _
    rw [getOrAdd_cost_stable getOrAdd_mem]
    exact getOrAdd_fst
  · exact getOrAdd_fst

end RoundTrip

namespace RoundTrip

theorem fold_stable : ∀ (l : List Node) (s : RTState) {a b : Node},
    (a, b) ∈ s.g.edges →
    (a, b) ∈ (l.foldl step s).g.edges ∧
      (l.foldl step s).g.cost a b = s.g.cost a b := by
  intro l
  induction l with
  | nil =>
    intro s a b h
    exact ⟨h, rfl⟩
  | cons w t ih =>
    intro s a b h
    obtain ⟨hm, hc⟩ := ih (step s w) (step_mem_mono w h)
    exact ⟨hm, hc.trans (step_cost_stable w h)⟩

theorem fold_route_stable : ∀ (l : List Node) (s : RTState) {v : Node},
    v ∉ l → (l.foldl step s).route v = s.route v := by
  intro l
  induction l with
  | nil =>
    intro s v _
    rfl
  | cons w t ih =>
    intro s v hv
    have h1 : v ∉ t := fun hm => hv (List.mem_cons_of_mem _ hm)
    have h2 : v ≠ w := fun he => hv (he ▸ List.mem_cons_self w t)
    rw [List.foldl_cons, ih (step s w) h1, step_route_ne h2]

theorem fold_new : ∀ (l : List Node) (s : RTState) {e : GEdge},
    e ∈ (l.foldl step s).g.edges →
    e ∈ s.g.edges ∨ ∃ w ∈ l, e = (Source, w) ∨ e = (w, Sink) := by
  intro l
  induction l with
  | nil =>
    intro s e h
    exact Or.inl h
  | cons w t ih =>
    intro s e h
    rcases ih (step s w) h with h' | h'
    · rcases step_new h' with h'' | h'' | h''
      · exact Or.inl h''
      · exact Or.inr ⟨w, List.mem_cons_self w t, Or.inl h''⟩
      · exact Or.inr ⟨w, List.mem_cons_self w t, Or.inr h''⟩
    · obtain ⟨u, hu, he⟩ := h'
      exact Or.inr ⟨u, List.mem_cons_of_mem _ hu, he⟩

theorem fold_nonneg : ∀ (l : List Node) (s : RTState),
    (∀ f ∈ s.g.edges, 0 ≤ s.g.cost f.1 f.2) →
    ∀ f ∈ (l.foldl step s).g.edges, 0 ≤ (l.foldl step s).g.cost f.1 f.2 := by
  intro l
  induction l with
  | nil =>
    intro s h
    exact h
  | cons w t ih =>
    intro s h
    exact ih (step s w) (step_nonneg w h)

/-- The opening state of `RoundTrip.run`. -/
def initState (G : VGraph) : RTState :=
  { g := G, route := fun _ => dRoute, round_trips := [], route_id := 0 }

theorem run_eq_fold (G : VGraph) : run G = G.nodes.foldl step (initState G) :=
  rfl

/-- What one full run guarantees about any single customer: its stored
route costs `c1 + c2`, those are exactly the final graph's costs of the
(possibly synthesized) Source and Sink edges, a missing edge was
synthesized at the penalty cost, and both summands are nonnegative
whenever the input costs are. -/
theorem run_customer_facts {G : VGraph} {v : Node} (hnd : G.nodes.Nodup)
    (hv : v ∈ customers G) :
    ∃ c1 c2 : ℚ,
      ((run G).route v).cost = c1 + c2 ∧
      (Source, v) ∈ (run G).g.edges ∧ (v, Sink) ∈ (run G).g.edges ∧
      (run G).g.cost Source v = c1 ∧ (run G).g.cost v Sink = c2 ∧
      ((Source, v) ∉ G.edges → c1 = penalty) ∧
      ((v, Sink) ∉ G.edges → c2 = penalty) ∧
      ((∀ f ∈ G.edges, 0 ≤ G.cost f.1 f.2) → 0 ≤ c1 ∧ 0 ≤ c2) := by
  have hvn : v ∈ G.nodes := (mem_customers.mp hv).1
  have h1 : v ≠ Source := (mem_customers.mp hv).2.1
  have h2 : v ≠ Sink := (mem_customers.mp hv).2.2
  obtain ⟨l1, l2, hsplit⟩ := List.append_of_mem hvn
  have hnd2 : (l1 ++ v :: l2).Nodup := hsplit ▸ hnd
  have hvl1 : v ∉ l1 := by
    rw [List.nodup_append] at hnd2
    exact fun hm => (hnd2.2.2 hm) (List.mem_cons_self v l2)
  have hvl2 : v ∉ l2 := by
    rw [List.nodup_append, List.nodup_cons] at hnd2
    exact hnd2.2.1.1
  set sMid := l1.foldl step (initState G) with hsMid
  set c1 := (getOrAdd sMid.g (Source, v)).1 with hc1
  set c2 := (getOrAdd (getOrAdd sMid.g (Source, v)).2 (v, Sink)).1 with hc2
  have hfold : run G = l2.foldl step (step sMid v) := by
    rw [run_eq_fold, hsplit, List.foldl_append, List.foldl_cons]
  have hfacts := step_self_facts (s := sMid) h1 h2
  refine ⟨c1, c2, ?_, ?_, ?_, ?_, ?_, ?_, ?_, ?_⟩
  · rw [hfold, fold_route_stable l2 _ hvl2, step_route_self h1 h2]
  · rw [hfold]
    exact (fold_stable l2 _ hfacts.1).1
  · rw [hfold]
    exact (fold_stable l2 _ hfacts.2.1).1
  · rw [hfold]
    exact ((fold_stable l2 _ hfacts.1).2).trans hfacts.2.2.1
  · rw [hfold]
    exact ((fold_stable l2 _ hfacts.2.1).2).trans hfacts.2.2.2
  · intro hmiss
    have hmid : (Source, v) ∉ sMid.g.edges := by
      intro hm
      rcases fold_new l1 (initState G) hm with h | ⟨w, hw, he | he⟩
      · exact hmiss h
      · simp only [Prod.mk.injEq] at he
        rw [he.2] at hvl1
        exact hvl1 hw
      · simp only [Prod.mk.injEq] at he
        exact h2 he.2
    rw [hc1]
    exact getOrAdd_fst_of_missing hmid
  · intro hmiss
    have hmid : (v, Sink) ∉ sMid.g.edges := by
      intro hm
      rcases fold_new l1 (initState G) hm with h | ⟨w, hw, he | he⟩
      · exact hmiss h
      · simp only [Prod.mk.injEq] at he
        exact h1 he.1
      · simp only [Prod.mk.injEq] at he
        rw [he.1] at hvl1
        exact hvl1 hw
    rw [hc2]
    exact getOrAdd_fst_of_missing (snk_still_missing h1 hmid)
  · intro hnn
    have hmidnn := fold_nonneg l1 (initState G) hnn
    exact ⟨(getOrAdd_nonneg hmidnn).2,
      (getOrAdd_nonneg (getOrAdd_nonneg hmidnn).1).2⟩

end RoundTrip

/-! ### Helpers for the finalization theorems -/

theorem chain_nodup {G : VGraph} {cs : List Node} (hnd : cs.Nodup)
    (hc : ∀ c ∈ cs, c ∈ customers G) :
    (Source :: cs ++ [Sink]).Nodup := by
  refine List.nodup_cons.mpr ⟨?_, ?_⟩
  · show Source ∉ cs ++ [Sink]
    simp only [List.mem_append, List.mem_singleton, not_or]
    exact ⟨fun hm => (mem_customers.mp (hc _ hm)).2.1 rfl, by decide⟩
  · show (cs ++ [Sink]).Nodup
    rw [List.nodup_append]
    refine ⟨hnd, List.nodup_singleton _, ?_⟩
    intro a ha hb
    rw [List.mem_singleton] at hb
    exact (mem_customers.mp (hc _ ha)).2.2 hb

theorem enumFrom_map_snd {α β : Type} (f : α → β) :
    ∀ (n : ℕ) (l : List α), (l.enumFrom n).map (fun p => f p.2) = l.map f := by
  intro n l
  induction l generalizing n with
  | nil => rfl
  | cons a t ih => simp [List.enumFrom, ih]

theorem enum_map_snd {α β : Type} (f : α → β) (l : List α) :
    l.enum.map (fun p => f p.2) = l.map f :=
  enumFrom_map_snd f 0 l

theorem route_customers_congr {r r' : Route} (h : r.edges = r'.edges) :
    route_customers r = route_customers r' := by
  rw [route_customers, route_customers, routeNodes, routeNodes, h]

namespace ClarkWright

theorem spec_route_customers {G : VGraph} {cfg : CWConfig} {s : CWState}
    {idx : ℕ} {cs : List Node} (h : RouteSpecAt G cfg s idx cs) :
    route_customers (routeAt s idx) = cs.toFinset ∧
    (routeNodes (routeAt s idx)).card = cs.length + 2 := by
  obtain ⟨hne, hnd, hcust, hedges, hpart, hload⟩ := h
  have hnodes : routeNodes (routeAt s idx)
      = (Source :: cs ++ [Sink]).toFinset := by
    rw [routeNodes, hedges]
    exact pathPairs_nodes (by simp)
  constructor
  · rw [route_customers, hnodes]
    ext x
    constructor
    · intro hmem
      rw [Finset.mem_filter] at hmem
      obtain ⟨h1, h2, h3⟩ := hmem
      rw [List.mem_toFinset] at h1
      rcases List.mem_cons.mp h1 with h | h
      · exact absurd h h2
      · rcases List.mem_append.mp h with h' | h'
        · exact List.mem_toFinset.mpr h'
        · exact absurd (List.mem_singleton.mp h') h3
    · intro hx
      rw [List.mem_toFinset] at hx
      have hm := mem_customers.mp (hcust x hx)
      rw [Finset.mem_filter, List.mem_toFinset]
      exact ⟨List.mem_cons_of_mem _ (List.mem_append_left _ hx),
        hm.2.1, hm.2.2⟩
  · rw [hnodes, List.toFinset_card_of_nodup (chain_nodup hnd hcust)]
    simp

theorem best_routes_exists_spec {G : VGraph} {cfg : CWConfig}
    (hWF : WF G) {r : Route} (hr : r ∈ best_routes G cfg) :
    ∃ v ∈ customers G, ∃ cs : List Node,
      RouteSpecAt G cfg (run_state G cfg)
        ((run_state G cfg).assign v) cs ∧
      r.edges = (routeAt (run_state G cfg)
        ((run_state G cfg).assign v)).edges ∧
      r.load = (routeAt (run_state G cfg)
        ((run_state G cfg).assign v)).load := by
  rw [best_routes] at hr
  obtain ⟨p, hp, hpr⟩ := List.mem_map.mp hr
  have hidx : p.2 ∈ distinct_idx G (run_state G cfg) := by
    have hg := List.mem_enum_iff_getElem?.mp hp
    exact List.getElem?_mem hg
  rw [distinct_idx, List.mem_dedup] at hidx
  obtain ⟨v, hv, hva⟩ := List.mem_map.mp hidx
  obtain ⟨cs, hcs⟩ := (@inv_run_state G cfg hWF).2.2.1 v hv
  refine ⟨v, hv, cs, hcs, ?_, ?_⟩
  · rw [← hpr]
    show (routeAt (run_state G cfg) p.2).edges = _
    rw [hva]
  · rw [← hpr]
    show (routeAt (run_state G cfg) p.2).load = _
    rw [hva]

end ClarkWright

/-! ### Concrete example inputs for witnesses and counterexamples -/

/-- A small wellformed network: two customers, all depot connections, and
one customer-to-customer edge. -/
def Gex : VGraph :=
  { nodes := [Source, Cust 0, Cust 1, Sink]
    edges := [(Source, Cust 0), (Cust 0, Sink), (Source, Cust 1),
      (Cust 1, Sink), (Cust 0, Cust 1)]
    cost := fun _ _ => 1
    time := fun _ _ => 1
    demand := fun _ => 1
    service_time := fun _ => 0 }

/-- One customer whose demand is 100. -/
def Gbig : VGraph :=
  { nodes := [Source, Cust 0, Sink]
    edges := [(Source, Cust 0), (Cust 0, Sink)]
    cost := fun _ _ => 1
    time := fun _ _ => 1
    demand := fun _ => 100
    service_time := fun _ => 0 }

/-- One customer with no edge to Sink. -/
def Gmiss : VGraph :=
  { nodes := [Source, Cust 0, Sink]
    edges := [(Source, Cust 0)]
    cost := fun _ _ => 1
    time := fun _ _ => 1
    demand := fun _ => 1
    service_time := fun _ => 0 }

def cfgNone : CWConfig := ⟨none, none, none⟩

def cfgCap : CWConfig := ⟨some 5, none, none⟩

def cfgCapBad : CWConfig := ⟨some 10, none, none⟩

def cfgStops : CWConfig := ⟨none, none, some 2⟩

def cfgStops0 : CWConfig := ⟨none, none, some 0⟩

instance decWF (G : VGraph) : Decidable (WF G) := by
  unfold WF
  infer_instance

/-! ### The claims -/

/-- C1: for every candidate edge (i, j) produced by `get_savings`, both
endpoints are customers (neither Source nor Sink), the edge is present in
the input network, and its savings value equals
`cost(i, Sink) + cost(Source, j) − cost(i, j)`. -/
theorem claim_C1 (G : VGraph) (hWF : WF G) :
    ∀ e ∈ ClarkWright.get_savings G,
      e.1 ∈ customers G ∧ e.2 ∈ customers G ∧ e ∈ G.edges ∧
      ClarkWright.savings G e
        = G.cost e.1 Sink + G.cost Source e.2 - G.cost e.1 e.2 :=
  fun _ he => ⟨(ClarkWright.get_savings_mem hWF he).1,
    (ClarkWright.get_savings_mem hWF he).2.1,
    (ClarkWright.get_savings_mem hWF he).2.2, rfl⟩

theorem claim_C1_witness :
    WF Gex ∧
    (∀ e ∈ ClarkWright.get_savings Gex,
      e.1 ∈ customers Gex ∧ e.2 ∈ customers Gex ∧ e ∈ Gex.edges ∧
      ClarkWright.savings Gex e
        = Gex.cost e.1 Sink + Gex.cost Source e.2 - Gex.cost e.1 e.2) :=
  ⟨by decide, claim_C1 Gex (by decide)⟩

/-- C2: the candidate list produced by `get_savings` is ordered by
non-increasing savings value: each candidate's savings is at least that of
every later (in particular the next) candidate. -/
theorem claim_C2 (G : VGraph) :
    (ClarkWright.get_savings G).Pairwise
      (fun a b => ClarkWright.savings G b ≤ ClarkWright.savings G a) := by
  have htrans : ∀ a b c : GEdge,
      decide (ClarkWright.savings G b ≤ ClarkWright.savings G a) = true →
      decide (ClarkWright.savings G c ≤ ClarkWright.savings G b) = true →
      decide (ClarkWright.savings G c ≤ ClarkWright.savings G a) = true := by
    intro a b c hab hbc
    rw [decide_eq_true_eq] at hab hbc ⊢
    exact le_trans hbc hab
  have htotal : ∀ a b : GEdge,
      (decide (ClarkWright.savings G b ≤ ClarkWright.savings G a)
        || decide (ClarkWright.savings G a ≤ ClarkWright.savings G b))
        = true := by
    intro a b
    rw [Bool.or_eq_true, decide_eq_true_eq, decide_eq_true_eq]
    exact le_total _ _
  have h := List.sorted_mergeSort htrans htotal
    (ClarkWright.candidate_edges G)
  rw [ClarkWright.get_savings]
  exact h.imp (fun hab => of_decide_eq_true hab)

/-- C3: after a full run, every customer's current route appears exactly
once among the distinct output routes, and every output route's edge set
is a simple path from Source through a nonempty duplicate-free customer
sequence to Sink. -/
theorem claim_C3 (G : VGraph) (cfg : CWConfig) (hWF : WF G) :
    (∀ v ∈ customers G,
      (ClarkWright.distinct_idx G (ClarkWright.run_state G cfg)).count
        ((ClarkWright.run_state G cfg).assign v) = 1) ∧
    (∀ r ∈ ClarkWright.best_routes G cfg, ∃ cs : List Node,
      cs ≠ [] ∧ (Source :: cs ++ [Sink]).Nodup ∧
      (∀ c ∈ cs, c ∈ customers G) ∧
      r.edges = (pathPairs (Source :: cs ++ [Sink])).toFinset) := by
  constructor
  · intro v hv
    apply List.count_eq_one_of_mem (List.nodup_dedup _)
    show (ClarkWright.run_state G cfg).assign v
      ∈ ((customers G).map (ClarkWright.run_state G cfg).assign).dedup
    rw [List.mem_dedup]
    exact List.mem_map_of_mem _ hv
  · intro r hr
    obtain ⟨v, hv, cs, hcs, hre, -⟩ :=
      ClarkWright.best_routes_exists_spec hWF hr
    exact ⟨cs, hcs.1, chain_nodup hcs.2.1 hcs.2.2.1, hcs.2.2.1,
      hre.trans hcs.2.2.2.1⟩

theorem claim_C3_witness :
    WF Gex ∧
    ((∀ v ∈ customers Gex,
      (ClarkWright.distinct_idx Gex (ClarkWright.run_state Gex cfgNone)).count
        ((ClarkWright.run_state Gex cfgNone).assign v) = 1) ∧
    (∀ r ∈ ClarkWright.best_routes Gex cfgNone, ∃ cs : List Node,
      cs ≠ [] ∧ (Source :: cs ++ [Sink]).Nodup ∧
      (∀ c ∈ cs, c ∈ customers Gex) ∧
      r.edges = (pathPairs (Source :: cs ++ [Sink])).toFinset)) :=
  ⟨by decide, claim_C3 Gex cfgNone (by decide)⟩

/-- C4, counterexample to the claim as stated: with `load_capacity = 10`
configured and a single customer of demand 100, the initial round trip is
never checked against the capacity, so the (only) output route carries
load 100 > 10.  Both the `load` attribute and the actual summed demand
exceed the capacity. -/
theorem claim_C4_counterexample :
    cfgCapBad.load_capacity = some 10 ∧
    ∃ r ∈ ClarkWright.best_routes Gbig cfgCapBad,
      ¬ (r.load ≤ capQ cfgCapBad) ∧
      ¬ (Finset.sum (route_customers r) Gbig.demand ≤ capQ cfgCapBad) := by
  have h1 : ClarkWright.get_savings Gbig = [] := by
    rw [ClarkWright.get_savings,
      show ClarkWright.candidate_edges Gbig = [] from rfl]
    exact List.mergeSort_nil
  have h2 : ClarkWright.run_state Gbig cfgCapBad
      = ClarkWright.initialize_routes Gbig cfgCapBad := by
    rw [ClarkWright.run_state, h1]
    rfl
  have hbr : ClarkWright.best_routes Gbig cfgCapBad
      = [{ ClarkWright.initRoute Gbig cfgCapBad (Cust 0) with name := 1 }] := by
    simp only [ClarkWright.best_routes, ClarkWright.distinct_idx, h2]
    rfl
  refine ⟨rfl, ?_⟩
  rw [hbr]
  refine ⟨_, List.mem_singleton_self _, by decide, ?_⟩
  have hrc : route_customers
      { ClarkWright.initRoute Gbig cfgCapBad (Cust 0) with name := 1 }
      = {Cust 0} := by decide
  rw [hrc, Finset.sum_singleton]
  decide

/-- C4, amended: if `load_capacity` is configured with a nonzero value and
every customer's demand is at most `load_capacity`, then every route in
the final output has its load (which equals the summed demand of its
customers) at most `load_capacity`. -/
theorem claim_C4 (G : VGraph) (cfg : CWConfig) (hWF : WF G)
    (hq : qTruthy cfg.load_capacity = true)
    (hd : ∀ v ∈ customers G, G.demand v ≤ capQ cfg) :
    ∀ r ∈ ClarkWright.best_routes G cfg,
      r.load ≤ capQ cfg ∧
      r.load = Finset.sum (route_customers r) G.demand := by
  intro r hr
  obtain ⟨v, hv, cs, hcs, hre, hrl⟩ :=
    ClarkWright.best_routes_exists_spec hWF hr
  constructor
  · rw [hrl]
    exact ClarkWright.cap_run_state hWF hq hd v hv
  · rw [hrl, hcs.2.2.2.2.2 hq, route_customers_congr hre,
      (ClarkWright.spec_route_customers hcs).1,
      List.sum_toFinset _ hcs.2.1]

theorem claim_C4_witness :
    WF Gex ∧ qTruthy cfgCap.load_capacity = true ∧
    (∀ v ∈ customers Gex, Gex.demand v ≤ capQ cfgCap) ∧
    (∀ r ∈ ClarkWright.best_routes Gex cfgCap,
      r.load ≤ capQ cfgCap ∧
      r.load = Finset.sum (route_customers r) Gex.demand) :=
  ⟨by decide, by decide, by decide,
    claim_C4 Gex cfgCap (by decide) (by decide) (by decide)⟩

/-- C5, counterexample to the claim as stated: `num_stops = 0` is a
configured value, but Python truthiness treats 0 as unset, so no stop
limit is enforced and the single output route visits 1 > 0 customers. -/
theorem claim_C5_counterexample :
    cfgStops0.num_stops = some 0 ∧
    ∃ r ∈ ClarkWright.best_routes Gbig cfgStops0,
      ¬ (((route_customers r).card : ℤ) ≤ stopsZ cfgStops0) := by
  have h1 : ClarkWright.get_savings Gbig = [] := by
    rw [ClarkWright.get_savings,
      show ClarkWright.candidate_edges Gbig = [] from rfl]
    exact List.mergeSort_nil
  have h2 : ClarkWright.run_state Gbig cfgStops0
      = ClarkWright.initialize_routes Gbig cfgStops0 := by
    rw [ClarkWright.run_state, h1]
    rfl
  have hbr : ClarkWright.best_routes Gbig cfgStops0
      = [{ ClarkWright.initRoute Gbig cfgStops0 (Cust 0) with name := 1 }] := by
    simp only [ClarkWright.best_routes, ClarkWright.distinct_idx, h2]
    rfl
  refine ⟨rfl, ?_⟩
  rw [hbr]
  exact ⟨_, List.mem_singleton_self _, by decide⟩

/-- C5, amended: if `num_stops` is configured with a value of at least 1,
then every route in the final output visits at most `num_stops`
customers. -/
theorem claim_C5 (G : VGraph) (cfg : CWConfig) (hWF : WF G)
    (hz : zTruthy cfg.num_stops = true) (hs1 : 1 ≤ stopsZ cfg) :
    ∀ r ∈ ClarkWright.best_routes G cfg,
      ((route_customers r).card : ℤ) ≤ stopsZ cfg := by
  intro r hr
  obtain ⟨v, hv, cs, hcs, hre, -⟩ :=
    ClarkWright.best_routes_exists_spec hWF hr
  have hstops := ClarkWright.stops_run_state hWF hz hs1 v hv
  have hrc := ClarkWright.spec_route_customers hcs
  rw [route_customers_congr hre, hrc.1,
    List.toFinset_card_of_nodup hcs.2.1]
  rw [hrc.2] at hstops
  omega

theorem claim_C5_witness :
    WF Gex ∧ zTruthy cfgStops.num_stops = true ∧ 1 ≤ stopsZ cfgStops ∧
    (∀ r ∈ ClarkWright.best_routes Gex cfgStops,
      ((route_customers r).card : ℤ) ≤ stopsZ cfgStops) :=
  ⟨by decide, by decide, by decide,
    claim_C5 Gex cfgStops (by decide) (by decide) (by decide)⟩

/-- C6: the reported total cost is the sum of the costs of the distinct
output routes: the distinct-identity list has no duplicates, every
customer's route identity appears in it, and `best_value` sums each
distinct route's cost exactly once. -/
theorem claim_C6 (G : VGraph) (cfg : CWConfig) :
    ClarkWright.best_value G cfg
      = ((ClarkWright.distinct_idx G (ClarkWright.run_state G cfg)).map
          (fun idx => (routeAt (ClarkWright.run_state G cfg) idx).cost)).sum
    ∧ (ClarkWright.distinct_idx G (ClarkWright.run_state G cfg)).Nodup
    ∧ ∀ v ∈ customers G,
        (ClarkWright.run_state G cfg).assign v
          ∈ ClarkWright.distinct_idx G (ClarkWright.run_state G cfg) := by
  refine ⟨?_, List.nodup_dedup _, ?_⟩
  · rw [ClarkWright.best_value, ClarkWright.best_routes, List.map_map]
    have hf : (Route.cost ∘ fun p : ℕ × ℕ =>
        { routeAt (ClarkWright.run_state G cfg) p.2 with name := p.1 + 1 })
        = fun p : ℕ × ℕ =>
          (routeAt (ClarkWright.run_state G cfg) p.2).cost := rfl
    rw [hf, enum_map_snd
      (fun idx => (routeAt (ClarkWright.run_state G cfg) idx).cost)
      (ClarkWright.distinct_idx G (ClarkWright.run_state G cfg))]
  · intro v hv
    show (ClarkWright.run_state G cfg).assign v
      ∈ ((customers G).map (ClarkWright.run_state G cfg).assign).dedup
    rw [List.mem_dedup]
    exact List.mem_map_of_mem _ hv

/-- C7: for every customer v, the initial round-trip route has cost
`cost(Source, v) + cost(v, Sink)`: in the Clark & Wright initialization
directly, and in the standalone round-trip initializer with respect to the
post-synthesis edge costs of the (possibly mutated) graph. -/
theorem claim_C7 (G : VGraph) (cfg : CWConfig) (v : Node)
    (hv : v ∈ customers G) (hnd : G.nodes.Nodup)
    (_hS : Source ∈ G.nodes) (_hK : Sink ∈ G.nodes) :
    (ClarkWright.initRoute G cfg v).cost = G.cost Source v + G.cost v Sink
    ∧ ((RoundTrip.run G).route v).cost
        = (RoundTrip.run G).g.cost Source v
          + (RoundTrip.run G).g.cost v Sink := by
  refine ⟨rfl, ?_⟩
  obtain ⟨c1, c2, hcost, -, -, hc1, hc2, -, -, -⟩ :=
    RoundTrip.run_customer_facts hnd hv
  rw [hcost, hc1, hc2]

theorem claim_C7_witness :
    Cust 0 ∈ customers Gex ∧ Gex.nodes.Nodup ∧
    ((ClarkWright.initRoute Gex cfgNone (Cust 0)).cost
        = Gex.cost Source (Cust 0) + Gex.cost (Cust 0) Sink
      ∧ ((RoundTrip.run Gex).route (Cust 0)).cost
        = (RoundTrip.run Gex).g.cost Source (Cust 0)
          + (RoundTrip.run Gex).g.cost (Cust 0) Sink) :=
  ⟨by decide, by decide,
    claim_C7 Gex cfgNone (Cust 0) (by decide) (by decide) (by decide)
      (by decide)⟩

/-- C8: in the round-trip initializer, a missing Source or Sink edge of a
customer does not make the run fail: the missing edge is synthesized into
the graph with the penalty cost `1e10`, and, if all present edge costs are
nonnegative, the customer's resulting route costs at least `1e10`. -/
theorem claim_C8 (G : VGraph) (v : Node) (hnd : G.nodes.Nodup)
    (hv : v ∈ customers G)
    (hmiss : (Source, v) ∉ G.edges ∨ (v, Sink) ∉ G.edges)
    (hnn : ∀ f ∈ G.edges, 0 ≤ G.cost f.1 f.2)
    (_hS : Source ∈ G.nodes) (_hK : Sink ∈ G.nodes) :
    RoundTrip.penalty ≤ ((RoundTrip.run G).route v).cost ∧
    ((Source, v) ∉ G.edges → (Source, v) ∈ (RoundTrip.run G).g.edges ∧
      (RoundTrip.run G).g.cost Source v = RoundTrip.penalty) ∧
    ((v, Sink) ∉ G.edges → (v, Sink) ∈ (RoundTrip.run G).g.edges ∧
      (RoundTrip.run G).g.cost v Sink = RoundTrip.penalty) := by
  obtain ⟨c1, c2, hcost, hm1, hm2, hc1, hc2, hp1, hp2, hn⟩ :=
    RoundTrip.run_customer_facts hnd hv
  obtain ⟨hn1, hn2⟩ := hn hnn
  refine ⟨?_, fun h => ⟨hm1, by rw [hc1, hp1 h]⟩,
    fun h => ⟨hm2, by rw [hc2, hp2 h]⟩⟩
  rw [hcost]
  rcases hmiss with h | h
  · rw [hp1 h]
    linarith
  · rw [hp2 h]
    linarith

theorem claim_C8_witness :
    Gmiss.nodes.Nodup ∧ Cust 0 ∈ customers Gmiss ∧
    (Cust 0, Sink) ∉ Gmiss.edges ∧
    (∀ f ∈ Gmiss.edges, 0 ≤ Gmiss.cost f.1 f.2) ∧
    (RoundTrip.penalty ≤ ((RoundTrip.run Gmiss).route (Cust 0)).cost ∧
    ((Source, Cust 0) ∉ Gmiss.edges →
      (Source, Cust 0) ∈ (RoundTrip.run Gmiss).g.edges ∧
      (RoundTrip.run Gmiss).g.cost Source (Cust 0) = RoundTrip.penalty) ∧
    ((Cust 0, Sink) ∉ Gmiss.edges →
      (Cust 0, Sink) ∈ (RoundTrip.run Gmiss).g.edges ∧
      (RoundTrip.run Gmiss).g.cost (Cust 0) Sink = RoundTrip.penalty)) :=
  ⟨by decide, by decide, by decide, by decide,
    claim_C8 Gmiss (Cust 0) (by decide) (by decide) (Or.inr (by decide))
      (by decide) (by decide) (by decide)⟩

/-- C9: at every point of the candidate-processing loop, a customer not
yet in the processed set still has its original arena slot, its route is
still exactly its initial single-customer round trip, and no other
customer shares its route, so a merge inserting it only has to reassign
its own mapping entry. -/
theorem claim_C9 (G : VGraph) (cfg : CWConfig) (hWF : WF G)
    (pfx rest : List GEdge)
    (hsplit : ClarkWright.get_savings G = pfx ++ rest) :
    ∀ v ∈ customers G,
      v ∉ (ClarkWright.fold_edges G cfg
        (ClarkWright.initialize_routes G cfg) pfx).processed →
      (ClarkWright.fold_edges G cfg (ClarkWright.initialize_routes G cfg)
        pfx).assign v = (customers G).indexOf v ∧
      routeAt (ClarkWright.fold_edges G cfg
        (ClarkWright.initialize_routes G cfg) pfx)
        ((ClarkWright.fold_edges G cfg (ClarkWright.initialize_routes G cfg)
          pfx).assign v) = ClarkWright.initRoute G cfg v ∧
      ∀ w ∈ customers G,
        (ClarkWright.fold_edges G cfg (ClarkWright.initialize_routes G cfg)
          pfx).assign w
          = (ClarkWright.fold_edges G cfg
            (ClarkWright.initialize_routes G cfg) pfx).assign v → w = v :=
  (@ClarkWright.inv_fold_of_prefix G cfg hWF pfx rest hsplit).2.2.2

theorem claim_C9_witness :
    WF Gex ∧
    ClarkWright.get_savings Gex = [] ++ ClarkWright.get_savings Gex ∧
    (∀ v ∈ customers Gex,
      v ∉ (ClarkWright.fold_edges Gex cfgNone
        (ClarkWright.initialize_routes Gex cfgNone) []).processed →
      (ClarkWright.fold_edges Gex cfgNone
        (ClarkWright.initialize_routes Gex cfgNone) []).assign v
        = (customers Gex).indexOf v ∧
      routeAt (ClarkWright.fold_edges Gex cfgNone
        (ClarkWright.initialize_routes Gex cfgNone) [])
        ((ClarkWright.fold_edges Gex cfgNone
          (ClarkWright.initialize_routes Gex cfgNone) []).assign v)
        = ClarkWright.initRoute Gex cfgNone v ∧
      ∀ w ∈ customers Gex,
        (ClarkWright.fold_edges Gex cfgNone
          (ClarkWright.initialize_routes Gex cfgNone) []).assign w
          = (ClarkWright.fold_edges Gex cfgNone
            (ClarkWright.initialize_routes Gex cfgNone) []).assign v
          → w = v) :=
  ⟨by decide, rfl,
    claim_C9 Gex cfgNone (by decide) [] (ClarkWright.get_savings Gex) rfl⟩

/-- C10: `RoundTrip.run` mutates the shared input graph: after the run the
graph has a Source edge and a Sink edge for every customer, any such edge
that was absent from the input carries the penalty cost `1e10`, and if any
such edge was absent the edge list has genuinely changed. -/
theorem claim_C10 (G : VGraph) (hnd : G.nodes.Nodup)
    (_hS : Source ∈ G.nodes) (_hK : Sink ∈ G.nodes) :
    ∀ v ∈ customers G,
      (Source, v) ∈ (RoundTrip.run G).g.edges ∧
      (v, Sink) ∈ (RoundTrip.run G).g.edges ∧
      ((Source, v) ∉ G.edges →
        (RoundTrip.run G).g.cost Source v = RoundTrip.penalty) ∧
      ((v, Sink) ∉ G.edges →
        (RoundTrip.run G).g.cost v Sink = RoundTrip.penalty) ∧
      (((Source, v) ∉ G.edges ∨ (v, Sink) ∉ G.edges) →
        (RoundTrip.run G).g.edges ≠ G.edges) := by
  intro v hv
  obtain ⟨c1, c2, -, hm1, hm2, hc1, hc2, hp1, hp2, -⟩ :=
    RoundTrip.run_customer_facts hnd hv
  refine ⟨hm1, hm2, fun h => by rw [hc1, hp1 h],
    fun h => by rw [hc2, hp2 h], ?_⟩
  rintro (h | h) he
  · exact h (he ▸ hm1)
  · exact h (he ▸ hm2)

theorem claim_C10_witness :
    Gmiss.nodes.Nodup ∧
    (∀ v ∈ customers Gmiss,
      (Source, v) ∈ (RoundTrip.run Gmiss).g.edges ∧
      (v, Sink) ∈ (RoundTrip.run Gmiss).g.edges ∧
      ((Source, v) ∉ Gmiss.edges →
        (RoundTrip.run Gmiss).g.cost Source v = RoundTrip.penalty) ∧
      ((v, Sink) ∉ Gmiss.edges →
        (RoundTrip.run Gmiss).g.cost v Sink = RoundTrip.penalty) ∧
      (((Source, v) ∉ Gmiss.edges ∨ (v, Sink) ∉ Gmiss.edges) →
        (RoundTrip.run Gmiss).g.edges ≠ Gmiss.edges)) :=
  ⟨by decide, claim_C10 Gmiss (by decide) (by decide) (by decide)⟩
